import Mathlib

/-!
CustomWindow: scene model, renderer and settings panel

A shallow embedding of `Source/CustomWindow/Public/CustomWindow.h` and
`Source/CustomWindow/Private/CustomWindow.cpp`.

Conventions of the embedding

* `float` / `double` quantities are rationals (`ℚ`): the arithmetic of the
  program is read as exact arithmetic.  Division by zero, which in IEEE
  arithmetic gives an infinity or a NaN, is outside what is proved: every
  statement about a quotient assumes a non-zero divisor.
* A raw pointer to a canvas item is an address (`Addr`), an index into the list
  of all objects ever created with `new`; `delete` is recorded in a log.
  A `UTexture2D*` is an `Option UTexture2D`, `none` being `nullptr`.
* Engine services (constructing an `FName` from a string, `LoadObject`, the
  small font of `GEngine`) are fields of an `Engine` value that the operations
  take as a parameter.  Calls of `LoadObject` are recorded in a log.
* An operation that dereferences a pointer returns an `Option`: `none` is the
  dereference of a null pointer.
-/

namespace CustomWindow

/-! ## Engine value types -/

abbrev FString := String

/-- Modelled from the spec: the engine type `FName`, a string-like token that
is compared for equality.  How a string is turned into an `FName` is a
field of `Engine`. -/
structure FName where
  Key : String
deriving DecidableEq, Repr

structure FVector2D where
  X : ℚ
  Y : ℚ
deriving DecidableEq, Repr

def FVector2D.ZeroVector : FVector2D := ⟨0, 0⟩

def FVector2D.UnitVector : FVector2D := ⟨1, 1⟩

/-- The constructor `FVector2D(InF)`: both components are `InF`. -/
def FVector2D.splat (InF : ℚ) : FVector2D := ⟨InF, InF⟩

structure FLinearColor where
  R : ℚ
  G : ℚ
  B : ℚ
  A : ℚ
deriving DecidableEq, Repr

def FLinearColor.White : FLinearColor := ⟨1, 1, 1, 1⟩

def FLinearColor.Black : FLinearColor := ⟨0, 0, 0, 1⟩

def FLinearColor.Red : FLinearColor := ⟨1, 0, 0, 1⟩

/-- The constructor `FLinearColor(R, G, B)`: the alpha defaults to `1.0f`. -/
def FLinearColor.ofRGB (r g b : ℚ) : FLinearColor := ⟨r, g, b, 1⟩

/-- What the program reads of a loaded texture: `GetSizeX()`, `GetSizeY()`
(both `int32`) and `GetResource()` (a pointer, kept as an identifier). -/
structure UTexture2D where
  SizeX : Int
  SizeY : Int
  Resource : Nat
deriving DecidableEq, Repr

structure UFont where
  Id : Nat
deriving DecidableEq, Repr

inductive ESimpleElementBlendMode where
  | SE_BLEND_Opaque
  | SE_BLEND_Translucent
  | SE_BLEND_AlphaBlend
deriving DecidableEq, Repr

/-- The engine services the scene model calls.  `LoadObject` is given the paths
of the calls made before, so that it may answer the same path differently at
different times. -/
structure Engine where
  MakeFName : FString → FName
  LoadObject : List FString → FString → Option UTexture2D
  SmallFont : UFont

/-! ## `TMap` -/

/-- Modelled from the spec: the engine container `TMap`, a key-value map that
is iterated in the order in which its keys were first added (nothing is ever
removed from a map one key at a time in this program). -/
abbrev TMap (K V : Type) := List (K × V)

namespace TMap

variable {K V : Type} [DecidableEq K]

/-- Modelled from the spec: `TMap::Find`, the value under a key, if any. -/
def Find : TMap K V → K → Option V
  | [], _ => none
  | (k, v) :: m, key => if k = key then some v else Find m key

/-- Modelled from the spec: `TMap::Contains`. -/
def Contains (m : TMap K V) (key : K) : Bool := (Find m key).isSome

/-- Modelled from the spec: `TMap::Emplace`, which replaces the value of a key
already present (the key keeps its place) and adds a new key at the end. -/
def Emplace : TMap K V → K → V → TMap K V
  | [], key, val => [(key, val)]
  | (k, v) :: m, key, val =>
      if k = key then (k, val) :: m else (k, v) :: Emplace m key val

/-- Modelled from the spec: `TMap::Num`. -/
def Num (m : TMap K V) : Nat := List.length m

/-- Modelled from the spec: `TMap::Empty`, which removes every pair; the
objects that stored raw pointers point to are not touched. -/
def Empty (_m : TMap K V) : TMap K V := []

/-- The keys of a map in iteration order. -/
def Keys (m : TMap K V) : List K := List.map Prod.fst m

/-- The values of a map in iteration order. -/
def Values (m : TMap K V) : List V := List.map Prod.snd m

end TMap

/-! ## Data records (`CustomWindow.h`) -/

structure FBoxData where
  Name : FName
  Position : FVector2D := FVector2D.ZeroVector
  Size : FVector2D := FVector2D.UnitVector
  Color : FLinearColor
  Thickness : ℚ := 1 / 10
deriving DecidableEq, Repr

structure FTextData where
  Name : FName
  Position : FVector2D := FVector2D.ZeroVector
  FontSize : ℚ := 1
  Color : FLinearColor
  Message : FString
deriving DecidableEq, Repr

structure FTileData where
  Name : FName
  Position : FVector2D := FVector2D.ZeroVector
  Size : FVector2D := FVector2D.UnitVector
  Color : FLinearColor := FLinearColor.White
  TexturePath : FString
deriving DecidableEq, Repr

/-! ## Canvas items

Of each engine item class the fields that the program sets are kept. -/

structure FCanvasBoxItem where
  Position : FVector2D
  Size : FVector2D
  Color : FLinearColor
  LineThickness : ℚ
deriving DecidableEq, Repr

structure FCanvasTextItem where
  Position : FVector2D
  Text : FString
  Font : UFont
  Color : FLinearColor
  Scale : FVector2D
deriving DecidableEq, Repr

structure FCanvasTileItem where
  Position : FVector2D
  Texture : Nat
  Size : FVector2D
  Color : FLinearColor
  BlendMode : ESimpleElementBlendMode
deriving DecidableEq, Repr

inductive FCanvasItem where
  | Box (b : FCanvasBoxItem)
  | Text (t : FCanvasTextItem)
  | Tile (t : FCanvasTileItem)
deriving DecidableEq, Repr

/-! ## The viewport client and the state around it -/

abbrev Addr := Nat

structure FCustomViewportClient where
  BackgroundColor : FLinearColor
  CanvasItems : TMap FName Addr
  LoadedTextures : TMap FName (Option UTexture2D)
deriving DecidableEq, Repr

/-- The state the scene operations act on: the client object, the free store
(every canvas item created with `new`, an item's address being its index), the
log of `delete` calls and the log of `LoadObject` calls. -/
structure World where
  Client : FCustomViewportClient
  Heap : List FCanvasItem
  Deleted : List Addr
  Loads : List FString
deriving DecidableEq, Repr

/-- Constructor `FCustomViewportClient::FCustomViewportClient()`. -/
def FCustomViewportClient.ctor : FCustomViewportClient :=
  { BackgroundColor := FLinearColor.Black, CanvasItems := [], LoadedTextures := [] }

/-- A freshly constructed client, nothing allocated, nothing loaded. -/
def World.fresh : World :=
  { Client := FCustomViewportClient.ctor, Heap := [], Deleted := [], Loads := [] }

/-- The expression `new T(...)`: the object is added to the free store and its
address returned. -/
def World.New (w : World) (item : FCanvasItem) : Addr × World :=
  (w.Heap.length, { w with Heap := w.Heap ++ [item] })

/-- The statement `delete CanvasItems[Name]`. -/
def World.DeleteItem (w : World) (Name : FName) : World :=
  match TMap.Find w.Client.CanvasItems Name with
  | some p => { w with Deleted := w.Deleted ++ [p] }
  | none => w

/-- The statement `CanvasItems.Emplace(Name, Item)`. -/
def World.EmplaceItem (w : World) (Name : FName) (Item : Addr) : World :=
  { w with Client := { w.Client with CanvasItems := TMap.Emplace w.Client.CanvasItems Name Item } }

/-- The tail shared by `AddBox`, `AddText` and `AddTile`: the item stored under
the name, if there is one, is deleted, then the new item is stored. -/
def World.Replace (w : World) (Name : FName) (Item : Addr) : World :=
  let w1 := if TMap.Contains w.Client.CanvasItems Name then w.DeleteItem Name else w
  w1.EmplaceItem Name Item

/-- The box item `AddBox` builds from a record: constructed from position and
size, then `SetColor` and the assignment of `LineThickness`. -/
def MakeBox (Data : FBoxData) : FCanvasBoxItem :=
  { Position := Data.Position, Size := Data.Size, Color := Data.Color,
    LineThickness := Data.Thickness }

/-- Method `FCustomViewportClient::AddBox`. -/
def AddBox (w : World) (Data : FBoxData) : World :=
  let (Box, w1) := w.New (FCanvasItem.Box (MakeBox Data))
  w1.Replace Data.Name Box

/-- The text item `AddText` builds from a record: the colour is rebuilt from
the three colour channels, the font is the small font of the engine, and the
scale is the font size in both directions. -/
def MakeText (E : Engine) (Data : FTextData) : FCanvasTextItem :=
  let Col := FLinearColor.ofRGB Data.Color.R Data.Color.G Data.Color.B
  { Position := Data.Position, Text := Data.Message, Font := E.SmallFont, Color := Col,
    Scale := FVector2D.splat Data.FontSize }

/-- Method `FCustomViewportClient::AddText`. -/
def AddText (E : Engine) (w : World) (Data : FTextData) : World :=
  let (Text, w1) := w.New (FCanvasItem.Text (MakeText E Data))
  w1.Replace Data.Name Text

/-- The first statement of `AddTile`: the texture pointer is taken from
`LoadedTextures`, after `LoadObject` has put it there when the path is new. -/
def ResolveTexture (E : Engine) (w : World) (TexturePath : FString) :
    Option UTexture2D × World :=
  if !TMap.Contains w.Client.LoadedTextures (E.MakeFName TexturePath) then
    let Texture := E.LoadObject w.Loads TexturePath
    (Texture,
      { w with
        Loads := w.Loads ++ [TexturePath]
        Client := { w.Client with
          LoadedTextures :=
            TMap.Emplace w.Client.LoadedTextures (E.MakeFName TexturePath) Texture } })
  else
    match TMap.Find w.Client.LoadedTextures (E.MakeFName TexturePath) with
    | some Texture => (Texture, w)
    | none => (none, w)

/-- The tile item `AddTile` builds from a record and a texture. -/
def MakeTile (Data : FTileData) (Texture : UTexture2D) : FCanvasTileItem :=
  let TextureRatio : ℚ := (Texture.SizeX : ℚ) / (Texture.SizeY : ℚ)
  { Position := Data.Position, Texture := Texture.Resource,
    Size := ⟨Data.Size.X * TextureRatio, Data.Size.Y⟩, Color := Data.Color,
    BlendMode := ESimpleElementBlendMode.SE_BLEND_AlphaBlend }

/-- Method `FCustomViewportClient::AddTile`.  The result is `none` when the texture
pointer that `Texture->GetSizeX()` dereferences is null. -/
def AddTile (E : Engine) (w : World) (Data : FTileData) : Option World :=
  match ResolveTexture E w Data.TexturePath with
  | (none, _) => none
  | (some Texture, w1) =>
      let (Tile, w2) := w1.New (FCanvasItem.Tile (MakeTile Data Texture))
      some (w2.Replace Data.Name Tile)

/-! ## Drawing -/

inductive CanvasOp where
  | Clear (Color : FLinearColor)
  | DrawItem (Item : Addr)
deriving DecidableEq, Repr

/-- The canvas, as the operations it has received, oldest first. -/
abbrev FCanvas := List CanvasOp

def FCanvas.Clear (Canvas : FCanvas) (Color : FLinearColor) : FCanvas :=
  Canvas ++ [CanvasOp.Clear Color]

def FCanvas.DrawItem (Canvas : FCanvas) (Item : Addr) : FCanvas :=
  Canvas ++ [CanvasOp.DrawItem Item]

/-- Method `FCustomViewportClient::Draw`: the state after the call and the canvas. -/
def Draw (w : World) (Canvas : FCanvas) : World × FCanvas :=
  let Canvas1 := FCanvas.Clear Canvas w.Client.BackgroundColor
  (w, List.foldl (fun c Item => FCanvas.DrawItem c Item.2) Canvas1 w.Client.CanvasItems)

/-- Destructor `FCustomViewportClient::~FCustomViewportClient`, which calls
`Empty()` on the two maps. -/
def Destroy (w : World) : World :=
  let c1 := { w.Client with CanvasItems := TMap.Empty w.Client.CanvasItems }
  let c2 := { c1 with LoadedTextures := TMap.Empty c1.LoadedTextures }
  { w with Client := c2 }

/-! ## Sequences of upserts -/

inductive Upsert where
  | Box (Data : FBoxData)
  | Text (Data : FTextData)
  | Tile (Data : FTileData)
deriving DecidableEq, Repr

def Upsert.Name : Upsert → FName
  | Upsert.Box d => d.Name
  | Upsert.Text d => d.Name
  | Upsert.Tile d => d.Name

def Upsert.apply (E : Engine) (w : World) : Upsert → Option World
  | Upsert.Box d => some (AddBox w d)
  | Upsert.Text d => some (AddText E w d)
  | Upsert.Tile d => AddTile E w d

/-- The upserts of a list applied one after the other; `none` as soon as one of
them dereferences a null pointer. -/
def run (E : Engine) (w : World) : List Upsert → Option World
  | [] => some w
  | op :: ops => (op.apply E w).bind fun w1 => run E w1 ops

/-- The item an upsert creates; for a tile, out of the texture that a state
holds in `LoadedTextures` under the path of the record. -/
def Upsert.item (E : Engine) (w : World) : Upsert → Option FCanvasItem
  | Upsert.Box d => some (FCanvasItem.Box (MakeBox d))
  | Upsert.Text d => some (FCanvasItem.Text (MakeText E d))
  | Upsert.Tile d =>
      match TMap.Find w.Client.LoadedTextures (E.MakeFName d.TexturePath) with
      | some (some Texture) => some (FCanvasItem.Tile (MakeTile d Texture))
      | _ => none

/-! ## The settings panel -/

/-- The three forms: the widget trees that `CreateBoxSettings`,
`CreateTextSettings` and `CreateTileSettings` return. -/
inductive SWidget where
  | BoxSettings
  | TextSettings
  | TileSettings
deriving DecidableEq, Repr

/-- The two brushes of the module, `&ActiveColor` and `&DisabledColor`. -/
inductive Brush where
  | ActiveColor
  | DisabledColor
deriving DecidableEq, Repr

inductive FReply where
  | Handled
  | Unhandled
deriving DecidableEq, Repr

/-- The border of a toggle: its image, and what the lambda given to
`OnMouseButtonDown_Lambda` has captured (`Name` and `WidgetToAdd`). -/
structure SBorder where
  BorderImage : Brush
  OnMouseButtonDown : FName × SWidget
deriving DecidableEq, Repr

/-- Modelled from the spec: the engine widget `SOverlay`, the side panel that
shows a form: a list of slots, each with a z-order and a widget. -/
abbrev SOverlay := List (Int × SWidget)

/-- Modelled from the spec: `SOverlay::GetNumWidgets`. -/
def SOverlay.GetNumWidgets (o : SOverlay) : Nat := List.length o

/-- Modelled from the spec: `SOverlay::RemoveSlot(ZOrder)`, which removes the
first slot of that z-order (the last slot when the z-order is `INDEX_NONE`). -/
def SOverlay.RemoveSlot (o : SOverlay) (ZOrder : Int) : SOverlay :=
  if ZOrder = -1 then List.dropLast o
  else
    match List.findIdx? (fun slot => decide (slot.1 = ZOrder)) o with
    | some i => List.eraseIdx o i
    | none => o

/-- Modelled from the spec: `SOverlay::AddSlot(ZOrder)` followed by
`AttachWidget`: the new slot is put before the first slot of a greater z-order
(at the end, one z-order above the last slot, when the z-order is
`INDEX_NONE`). -/
def SOverlay.AddSlot (o : SOverlay) (ZOrder : Int) (Widget : SWidget) : SOverlay :=
  if ZOrder = -1 then
    match List.getLast? o with
    | some last => o ++ [(last.1 + 1, Widget)]
    | none => o ++ [(0, Widget)]
  else
    List.takeWhile (fun slot => decide (slot.1 ≤ ZOrder)) o ++ (ZOrder, Widget) ::
      List.dropWhile (fun slot => decide (slot.1 ≤ ZOrder)) o

/-- Modelled from the spec: a write through the reference `Map[Key]`: the value
under the key is replaced by its image under `f`. -/
def TMap.Update {K V : Type} [DecidableEq K] (m : TMap K V) (key : K) (f : V → V) : TMap K V :=
  List.map (fun p => if p.1 = key then (p.1, f p.2) else p) m

/-- The state of `FCustomWindowModule` that the panel reads and writes. -/
structure FCustomWindowModule where
  Settings : TMap FName (SBorder × SWidget)
  Overlay : SOverlay
  BoxData : FBoxData
  TextData : FTextData
  TileData : FTileData
deriving DecidableEq, Repr

/-- Method `FCustomWindowModule::Deselect`. -/
def Deselect (m : FCustomWindowModule) : FCustomWindowModule :=
  let disable : FName × SBorder × SWidget → FName × SBorder × SWidget := fun Setting =>
    (Setting.1, ({ Setting.2.1 with BorderImage := Brush.DisabledColor }, Setting.2.2))
  { m with Settings := List.map disable m.Settings }

/-- Method `FCustomWindowModule::SetOverlay`. -/
def SetOverlay (m : FCustomWindowModule) (NewWidget : SWidget) : FCustomWindowModule :=
  let o1 := if SOverlay.GetNumWidgets m.Overlay > 0 then SOverlay.RemoveSlot m.Overlay 0
    else m.Overlay
  { m with Overlay := SOverlay.AddSlot o1 0 NewWidget }

/-- The lambda that `CreateToggle` gives to `OnMouseButtonDown_Lambda`, with
its captures `Name` and `WidgetToAdd`; `none` when `Settings[Name]` has no such
key. -/
def OnMouseButtonDown (m : FCustomWindowModule) (Name : FName) (WidgetToAdd : SWidget) :
    Option (FReply × FCustomWindowModule) :=
  let m1 := Deselect m
  if TMap.Contains m1.Settings Name then
    let activate : SBorder × SWidget → SBorder × SWidget := fun Setting =>
      ({ Setting.1 with BorderImage := Brush.ActiveColor }, Setting.2)
    let m2 := { m1 with Settings := TMap.Update m1.Settings Name activate }
    some (FReply.Handled, SetOverlay m2 WidgetToAdd)
  else none

/-- Method `FCustomWindowModule::CreateToggle`. -/
def CreateToggle (m : FCustomWindowModule) (Name : FName) (WidgetToAdd : SWidget) :
    FCustomWindowModule :=
  let Border : SBorder :=
    { BorderImage := Brush.DisabledColor, OnMouseButtonDown := (Name, WidgetToAdd) }
  { m with Settings := TMap.Emplace m.Settings Name (Border, WidgetToAdd) }

/-- Method `FCustomWindowModule::Init`. -/
def Init (E : Engine) (m : FCustomWindowModule) : FCustomWindowModule :=
  let m1 := CreateToggle m (E.MakeFName "Box") SWidget.BoxSettings
  let m2 := CreateToggle m1 (E.MakeFName "Text") SWidget.TextSettings
  CreateToggle m2 (E.MakeFName "Texture") SWidget.TileSettings

/-- What `FCustomWindowModule::CreateWindow` does to the state of the panel:
`Init()`, and then `SAssignNew(Overlay, SOverlay)`, a new overlay without
slots.  (The viewport and the layout of the tab are not part of that state.) -/
def CreateWindow (E : Engine) (m : FCustomWindowModule) : FCustomWindowModule :=
  { Init E m with Overlay := [] }

/-- A mouse click on the toggle stored under a key: the lambda of its border
runs.  `none` when there is no such toggle. -/
def Click (m : FCustomWindowModule) (Toggle : FName) : Option FCustomWindowModule :=
  match TMap.Find m.Settings Toggle with
  | some (Border, _) =>
      (OnMouseButtonDown m Border.OnMouseButtonDown.1 Border.OnMouseButtonDown.2).map Prod.snd
  | none => none

/-- A sequence of clicks, one after the other. -/
def Clicks (m : FCustomWindowModule) : List FName → Option FCustomWindowModule
  | [] => some m
  | Toggle :: rest => (Click m Toggle).bind fun m1 => Clicks m1 rest

/-- The toggles whose border shows the active brush. -/
def ActiveToggles (m : FCustomWindowModule) : List FName :=
  TMap.Keys (List.filter (fun Setting => decide (Setting.2.1.BorderImage = Brush.ActiveColor))
    m.Settings)

/-- The widgets the overlay shows. -/
def SOverlay.Widgets (o : SOverlay) : List SWidget := List.map Prod.snd o

/-! ## The forms: pending records, field callbacks and ENTER

The lambdas of the three forms capture `this`, so they are functions of the
whole state that the module can reach.  The lambdas named `...Update` return a
field of a record and write nothing; they are not part of the model. -/

/-- The state that a callback of the panel can reach: the module object and,
through `ViewportClient`, the client with the free store around it. -/
structure EditorState where
  Module : FCustomWindowModule
  World : World
deriving DecidableEq, Repr

/-- Modelled from the spec: the engine type `FText`, of which the program reads
`ToString()`: the text is that string. -/
abbrev FText := FString

/-- Modelled from the spec: the engine type `FAssetData`, of which the program
reads `ObjectPath.ToString()`: the field is that string. -/
structure FAssetData where
  ObjectPath : FString
deriving DecidableEq, Repr

inductive ETextCommit where
  | Default
  | OnEnter
  | OnUserMovedFocus
  | OnCleared
deriving DecidableEq, Repr

/-- The template argument of `FCustomWindowModule::Add<T>`: one of the three
classes for which the template is specialized, or any other class. -/
inductive ItemClass where
  | FCanvasBoxItem
  | FCanvasTextItem
  | FCanvasTileItem
  | Other
deriving DecidableEq, Repr

/-- Member template `FCustomWindowModule::Add<T>`: the primary template and
its three specializations.  `ViewportClient->AddTile` is `none` when it
dereferences a null texture pointer. -/
def Add (E : Engine) (T : ItemClass) (s : EditorState) : Option (FReply × EditorState) :=
  match T with
  | ItemClass.Other => some (FReply.Unhandled, s)
  | ItemClass.FCanvasBoxItem =>
      some (FReply.Handled, { s with World := AddBox s.World s.Module.BoxData })
  | ItemClass.FCanvasTextItem =>
      some (FReply.Handled, { s with World := AddText E s.World s.Module.TextData })
  | ItemClass.FCanvasTileItem =>
      (AddTile E s.World s.Module.TileData).map fun w => (FReply.Handled, { s with World := w })

/-- The member function that the ENTER button of a form is created with, in
the last slot of `CreateBoxSettings`, `CreateTextSettings` and
`CreateTileSettings`. -/
def EnterAction : SWidget → ItemClass
  | SWidget.BoxSettings => ItemClass.FCanvasBoxItem
  | SWidget.TextSettings => ItemClass.FCanvasTextItem
  | SWidget.TileSettings => ItemClass.FCanvasTileItem

/-- A click on the ENTER button of a form: `OnClicked_Raw(this, InFunc)` calls
the member function the button was created with. -/
def Enter (E : Engine) (Form : SWidget) (s : EditorState) : Option (FReply × EditorState) :=
  Add E (EnterAction Form) s

/-- The pending record of a form, as the upsert that commits it. -/
def Pending (m : FCustomWindowModule) : SWidget → Upsert
  | SWidget.BoxSettings => Upsert.Box m.BoxData
  | SWidget.TextSettings => Upsert.Text m.TextData
  | SWidget.TileSettings => Upsert.Tile m.TileData

/-- The record `BoxData` of the module replaced. -/
def EditorState.setBoxData (s : EditorState) (d : FBoxData) : EditorState :=
  { s with Module := { s.Module with BoxData := d } }

/-- The record `TextData` of the module replaced. -/
def EditorState.setTextData (s : EditorState) (d : FTextData) : EditorState :=
  { s with Module := { s.Module with TextData := d } }

/-- The record `TileData` of the module replaced. -/
def EditorState.setTileData (s : EditorState) (d : FTileData) : EditorState :=
  { s with Module := { s.Module with TileData := d } }

namespace CreateBoxSettings

def OnNameCommit (E : Engine) (s : EditorState) (InText : FText) (_CommitType : ETextCommit) :
    EditorState :=
  s.setBoxData { s.Module.BoxData with Name := E.MakeFName InText }

def OnThicknessCommit (s : EditorState) (InValue : ℚ) (_CommitType : ETextCommit) :
    EditorState :=
  s.setBoxData { s.Module.BoxData with Thickness := InValue }

/-- The value is a `uint32`, given as a natural number. -/
def OnPosXCommit (s : EditorState) (InValue : Nat) (_CommitType : ETextCommit) : EditorState :=
  s.setBoxData { s.Module.BoxData with
    Position := { s.Module.BoxData.Position with X := (InValue : ℚ) } }

def OnPosYCommit (s : EditorState) (InValue : Nat) (_CommitType : ETextCommit) : EditorState :=
  s.setBoxData { s.Module.BoxData with
    Position := { s.Module.BoxData.Position with Y := (InValue : ℚ) } }

def OnSizeWCommit (s : EditorState) (InValue : Nat) (_CommitType : ETextCommit) : EditorState :=
  s.setBoxData { s.Module.BoxData with
    Size := { s.Module.BoxData.Size with X := (InValue : ℚ) } }

def OnSizeHCommit (s : EditorState) (InValue : Nat) (_CommitType : ETextCommit) : EditorState :=
  s.setBoxData { s.Module.BoxData with
    Size := { s.Module.BoxData.Size with Y := (InValue : ℚ) } }

/-- The engine function `FLinearColor::HSVToLinearRGB` is a parameter. -/
def OnColorSelected (HSVToLinearRGB : FLinearColor → FLinearColor) (s : EditorState)
    (InColor : FLinearColor) : EditorState :=
  s.setBoxData { s.Module.BoxData with Color := HSVToLinearRGB InColor }

end CreateBoxSettings

namespace CreateTextSettings

def OnNameCommit (E : Engine) (s : EditorState) (InText : FText) (_CommitType : ETextCommit) :
    EditorState :=
  s.setTextData { s.Module.TextData with Name := E.MakeFName InText }

def OnMessageCommit (s : EditorState) (InText : FText) (_CommitType : ETextCommit) :
    EditorState :=
  s.setTextData { s.Module.TextData with Message := InText }

def OnPosXCommit (s : EditorState) (InValue : Nat) (_CommitType : ETextCommit) : EditorState :=
  s.setTextData { s.Module.TextData with
    Position := { s.Module.TextData.Position with X := (InValue : ℚ) } }

def OnPosYCommit (s : EditorState) (InValue : Nat) (_CommitType : ETextCommit) : EditorState :=
  s.setTextData { s.Module.TextData with
    Position := { s.Module.TextData.Position with Y := (InValue : ℚ) } }

def OnFontSizeCommit (s : EditorState) (InValue : ℚ) (_CommitType : ETextCommit) :
    EditorState :=
  s.setTextData { s.Module.TextData with FontSize := InValue }

def OnColorSelected (HSVToLinearRGB : FLinearColor → FLinearColor) (s : EditorState)
    (InColor : FLinearColor) : EditorState :=
  s.setTextData { s.Module.TextData with Color := HSVToLinearRGB InColor }

end CreateTextSettings

namespace CreateTileSettings

def OnNameCommit (E : Engine) (s : EditorState) (InText : FText) (_CommitType : ETextCommit) :
    EditorState :=
  s.setTileData { s.Module.TileData with Name := E.MakeFName InText }

def OnPosXCommit (s : EditorState) (InValue : Nat) (_CommitType : ETextCommit) : EditorState :=
  s.setTileData { s.Module.TileData with
    Position := { s.Module.TileData.Position with X := (InValue : ℚ) } }

def OnPosYCommit (s : EditorState) (InValue : Nat) (_CommitType : ETextCommit) : EditorState :=
  s.setTileData { s.Module.TileData with
    Position := { s.Module.TileData.Position with Y := (InValue : ℚ) } }

def OnSizeWCommit (s : EditorState) (InValue : Nat) (_CommitType : ETextCommit) : EditorState :=
  s.setTileData { s.Module.TileData with
    Size := { s.Module.TileData.Size with X := (InValue : ℚ) } }

def OnSizeHCommit (s : EditorState) (InValue : Nat) (_CommitType : ETextCommit) : EditorState :=
  s.setTileData { s.Module.TileData with
    Size := { s.Module.TileData.Size with Y := (InValue : ℚ) } }

/-- The colour is converted, then its alpha is set to `1.0f`. -/
def OnColorSelected (HSVToLinearRGB : FLinearColor → FLinearColor) (s : EditorState)
    (InColor : FLinearColor) : EditorState :=
  let s1 := s.setTileData { s.Module.TileData with Color := HSVToLinearRGB InColor }
  s1.setTileData { s1.Module.TileData with Color := { s1.Module.TileData.Color with A := 1 } }

def OnTextureSelected (s : EditorState) (InTexture : FAssetData) : EditorState :=
  s.setTileData { s.Module.TileData with TexturePath := InTexture.ObjectPath }

end CreateTileSettings

/-- A call of one of the writing lambdas of the three forms, with its
arguments. -/
inductive FieldCallback where
  | BoxName (InText : FText) (CommitType : ETextCommit)
  | BoxThickness (InValue : ℚ) (CommitType : ETextCommit)
  | BoxPosX (InValue : Nat) (CommitType : ETextCommit)
  | BoxPosY (InValue : Nat) (CommitType : ETextCommit)
  | BoxSizeW (InValue : Nat) (CommitType : ETextCommit)
  | BoxSizeH (InValue : Nat) (CommitType : ETextCommit)
  | BoxColor (InColor : FLinearColor)
  | TextName (InText : FText) (CommitType : ETextCommit)
  | TextMessage (InText : FText) (CommitType : ETextCommit)
  | TextPosX (InValue : Nat) (CommitType : ETextCommit)
  | TextPosY (InValue : Nat) (CommitType : ETextCommit)
  | TextFontSize (InValue : ℚ) (CommitType : ETextCommit)
  | TextColor (InColor : FLinearColor)
  | TileName (InText : FText) (CommitType : ETextCommit)
  | TilePosX (InValue : Nat) (CommitType : ETextCommit)
  | TilePosY (InValue : Nat) (CommitType : ETextCommit)
  | TileSizeW (InValue : Nat) (CommitType : ETextCommit)
  | TileSizeH (InValue : Nat) (CommitType : ETextCommit)
  | TileColor (InColor : FLinearColor)
  | TileTexture (InTexture : FAssetData)
deriving DecidableEq, Repr

/-- The lambda of a call, applied to a state. -/
def FieldCallback.run (E : Engine) (HSVToLinearRGB : FLinearColor → FLinearColor)
    (s : EditorState) : FieldCallback → EditorState
  | FieldCallback.BoxName t c => CreateBoxSettings.OnNameCommit E s t c
  | FieldCallback.BoxThickness v c => CreateBoxSettings.OnThicknessCommit s v c
  | FieldCallback.BoxPosX v c => CreateBoxSettings.OnPosXCommit s v c
  | FieldCallback.BoxPosY v c => CreateBoxSettings.OnPosYCommit s v c
  | FieldCallback.BoxSizeW v c => CreateBoxSettings.OnSizeWCommit s v c
  | FieldCallback.BoxSizeH v c => CreateBoxSettings.OnSizeHCommit s v c
  | FieldCallback.BoxColor col => CreateBoxSettings.OnColorSelected HSVToLinearRGB s col
  | FieldCallback.TextName t c => CreateTextSettings.OnNameCommit E s t c
  | FieldCallback.TextMessage t c => CreateTextSettings.OnMessageCommit s t c
  | FieldCallback.TextPosX v c => CreateTextSettings.OnPosXCommit s v c
  | FieldCallback.TextPosY v c => CreateTextSettings.OnPosYCommit s v c
  | FieldCallback.TextFontSize v c => CreateTextSettings.OnFontSizeCommit s v c
  | FieldCallback.TextColor col => CreateTextSettings.OnColorSelected HSVToLinearRGB s col
  | FieldCallback.TileName t c => CreateTileSettings.OnNameCommit E s t c
  | FieldCallback.TilePosX v c => CreateTileSettings.OnPosXCommit s v c
  | FieldCallback.TilePosY v c => CreateTileSettings.OnPosYCommit s v c
  | FieldCallback.TileSizeW v c => CreateTileSettings.OnSizeWCommit s v c
  | FieldCallback.TileSizeH v c => CreateTileSettings.OnSizeHCommit s v c
  | FieldCallback.TileColor col => CreateTileSettings.OnColorSelected HSVToLinearRGB s col
  | FieldCallback.TileTexture a => CreateTileSettings.OnTextureSelected s a

/-- A sequence of calls of writing lambdas, one after the other. -/
def Edits (E : Engine) (HSVToLinearRGB : FLinearColor → FLinearColor) (s : EditorState)
    (cbs : List FieldCallback) : EditorState :=
  List.foldl (FieldCallback.run E HSVToLinearRGB) s cbs

/-- The form whose construction creates the lambda of a call. -/
def FieldCallback.Form : FieldCallback → SWidget
  | FieldCallback.BoxName _ _ => SWidget.BoxSettings
  | FieldCallback.BoxThickness _ _ => SWidget.BoxSettings
  | FieldCallback.BoxPosX _ _ => SWidget.BoxSettings
  | FieldCallback.BoxPosY _ _ => SWidget.BoxSettings
  | FieldCallback.BoxSizeW _ _ => SWidget.BoxSettings
  | FieldCallback.BoxSizeH _ _ => SWidget.BoxSettings
  | FieldCallback.BoxColor _ => SWidget.BoxSettings
  | FieldCallback.TextName _ _ => SWidget.TextSettings
  | FieldCallback.TextMessage _ _ => SWidget.TextSettings
  | FieldCallback.TextPosX _ _ => SWidget.TextSettings
  | FieldCallback.TextPosY _ _ => SWidget.TextSettings
  | FieldCallback.TextFontSize _ _ => SWidget.TextSettings
  | FieldCallback.TextColor _ => SWidget.TextSettings
  | FieldCallback.TileName _ _ => SWidget.TileSettings
  | FieldCallback.TilePosX _ _ => SWidget.TileSettings
  | FieldCallback.TilePosY _ _ => SWidget.TileSettings
  | FieldCallback.TileSizeW _ _ => SWidget.TileSettings
  | FieldCallback.TileSizeH _ _ => SWidget.TileSettings
  | FieldCallback.TileColor _ => SWidget.TileSettings
  | FieldCallback.TileTexture _ => SWidget.TileSettings

/-- The fields of the three records. -/
inductive RecordField where
  | Name
  | Position
  | Size
  | Thickness
  | FontSize
  | Message
  | Color
  | TexturePath
deriving DecidableEq, Repr

/-- The field that the widget of a call edits. -/
def FieldCallback.Field : FieldCallback → RecordField
  | FieldCallback.BoxName _ _ => RecordField.Name
  | FieldCallback.BoxThickness _ _ => RecordField.Thickness
  | FieldCallback.BoxPosX _ _ => RecordField.Position
  | FieldCallback.BoxPosY _ _ => RecordField.Position
  | FieldCallback.BoxSizeW _ _ => RecordField.Size
  | FieldCallback.BoxSizeH _ _ => RecordField.Size
  | FieldCallback.BoxColor _ => RecordField.Color
  | FieldCallback.TextName _ _ => RecordField.Name
  | FieldCallback.TextMessage _ _ => RecordField.Message
  | FieldCallback.TextPosX _ _ => RecordField.Position
  | FieldCallback.TextPosY _ _ => RecordField.Position
  | FieldCallback.TextFontSize _ _ => RecordField.FontSize
  | FieldCallback.TextColor _ => RecordField.Color
  | FieldCallback.TileName _ _ => RecordField.Name
  | FieldCallback.TilePosX _ _ => RecordField.Position
  | FieldCallback.TilePosY _ _ => RecordField.Position
  | FieldCallback.TileSizeW _ _ => RecordField.Size
  | FieldCallback.TileSizeH _ _ => RecordField.Size
  | FieldCallback.TileColor _ => RecordField.Color
  | FieldCallback.TileTexture _ => RecordField.TexturePath

/-! ## Predicates and abbreviations used in the statements -/

/-- The name under which `Init` stores the toggle of a form. -/
def toggleName (E : Engine) : SWidget → FName
  | SWidget.BoxSettings => E.MakeFName "Box"
  | SWidget.TextSettings => E.MakeFName "Text"
  | SWidget.TileSettings => E.MakeFName "Texture"

/-- The entry of `Settings` for a form, with a given border image. -/
def toggleEntry (E : Engine) (Image : Brush) (Form : SWidget) : FName × SBorder × SWidget :=
  (toggleName E Form,
    { BorderImage := Image, OnMouseButtonDown := (toggleName E Form, Form) }, Form)

/-- The brush of the toggle of a form when the form `sel`, if any, is the one
selected. -/
def brushFor (sel : Option SWidget) (Form : SWidget) : Brush :=
  if sel = some Form then Brush.ActiveColor else Brush.DisabledColor

/-- The module with the three toggles built, the toggle of the form `sel`, if
any, active and that form in the overlay. -/
def PanelShowing (E : Engine) (m : FCustomWindowModule) (sel : Option SWidget) :
    FCustomWindowModule :=
  { m with
    Settings :=
      [toggleEntry E (brushFor sel SWidget.BoxSettings) SWidget.BoxSettings,
       toggleEntry E (brushFor sel SWidget.TextSettings) SWidget.TextSettings,
       toggleEntry E (brushFor sel SWidget.TileSettings) SWidget.TileSettings]
    Overlay :=
      match sel with
      | none => []
      | some Form => [(0, Form)] }

/-- The three toggle names of an engine are different names. -/
def ToggleNamesDistinct (E : Engine) : Prop :=
  E.MakeFName "Box" ≠ E.MakeFName "Text" ∧ E.MakeFName "Box" ≠ E.MakeFName "Texture" ∧
  E.MakeFName "Text" ≠ E.MakeFName "Texture"

/-- The `delete` log after the tail shared by the three upserts. -/
def deletedAfter (w : World) (Name : FName) : List Addr :=
  match TMap.Find w.Client.CanvasItems Name with
  | some p => w.Deleted ++ [p]
  | none => w.Deleted

/-- No null pointer is stored in `LoadedTextures`. -/
def NoNullTexture (w : World) : Prop :=
  ∀ k, TMap.Find w.Client.LoadedTextures k ≠ some none

/-- The engine finds a texture for every path, whenever it is asked. -/
def LoadsSucceed (E : Engine) : Prop :=
  ∀ log p, (E.LoadObject log p).isSome = true

/-- The keys of `LoadedTextures` are the names of the loaded paths, in the
order of the loads, and no key occurs twice. -/
def CacheMatchesLoads (E : Engine) (w : World) : Prop :=
  TMap.Keys w.Client.LoadedTextures = w.Loads.map E.MakeFName ∧
  (TMap.Keys w.Client.LoadedTextures).Nodup

/-- Whether a canvas operation is a `DrawItem`. -/
def CanvasOp.isDrawItem : CanvasOp → Bool
  | CanvasOp.Clear _ => false
  | CanvasOp.DrawItem _ => true

/-- Every address is, counted together, as often a value of `CanvasItems` and
an entry of the `delete` log as it has been allocated: once when it is an
address of the free store, never otherwise. -/
def Balanced (w : World) : Prop :=
  ∀ a : Nat, (TMap.Values w.Client.CanvasItems).count a + w.Deleted.count a =
    if a < w.Heap.length then 1 else 0

/-! ## A concrete engine and concrete records, for examples -/

/-- An engine in which distinct strings are distinct names and every path has a
texture of 200 by 100, a new resource at each load. -/
def demoEngine : Engine :=
  { MakeFName := FName.mk
    LoadObject := fun log _ => some { SizeX := 200, SizeY := 100, Resource := log.length }
    SmallFont := { Id := 0 } }

/-- An engine that has no texture at all: `LoadObject` returns a null pointer. -/
def emptyEngine : Engine :=
  { MakeFName := FName.mk
    LoadObject := fun _ _ => none
    SmallFont := { Id := 0 } }

def demoBoxA : FBoxData :=
  { Name := ⟨"A"⟩, Position := ⟨0, 0⟩, Size := ⟨1, 1⟩, Color := FLinearColor.Red,
    Thickness := 1 / 5 }

def demoTextA : FTextData :=
  { Name := ⟨"A"⟩, Position := ⟨3, 4⟩, FontSize := 2, Color := FLinearColor.White,
    Message := "hello" }

def demoTileT (sx sy : ℚ) : FTileData :=
  { Name := ⟨"T"⟩, Size := ⟨sx, sy⟩, TexturePath := "tex1" }

def demoOps : List Upsert :=
  [Upsert.Box demoBoxA, Upsert.Tile (demoTileT 100 50), Upsert.Text demoTextA]

/-- Two tiles on the same path, a box between them. -/
def demoTwoTiles : List Upsert :=
  [Upsert.Tile (demoTileT 100 50), Upsert.Box demoBoxA, Upsert.Tile (demoTileT 100 200)]

/-- A module whose panel has not been built. -/
def demoModule : FCustomWindowModule :=
  { Settings := [], Overlay := [], BoxData := demoBoxA, TextData := demoTextA,
    TileData := demoTileT 100 50 }

/-- The state after the panel has been built, nothing committed yet. -/
def demoEditor : EditorState :=
  { Module := CreateWindow demoEngine demoModule, World := World.fresh }

/-- A stand-in for `FLinearColor::HSVToLinearRGB` that swaps the first two
channels. -/
def demoHSV (c : FLinearColor) : FLinearColor := ⟨c.G, c.R, c.B, c.A⟩

/-! ## Facts about `TMap` -/

namespace TMap

variable {K V : Type} [DecidableEq K]

theorem Find_Emplace_self (m : TMap K V) (k : K) (v : V) :
    Find (Emplace m k v) k = some v := by
  induction m with
  | nil => simp [Emplace, Find]
  | cons p m ih =>
    obtain ⟨k0, v0⟩ := p
    by_cases h : k0 = k
    · simp [Emplace, Find, h]
    · simp [Emplace, Find, h, ih]

theorem Find_Emplace_ne (m : TMap K V) {k k1 : K} (v : V) (h : k ≠ k1) :
    Find (Emplace m k v) k1 = Find m k1 := by
  induction m with
  | nil => simp [Emplace, Find, h]
  | cons p m ih =>
    obtain ⟨k0, v0⟩ := p
    by_cases h0 : k0 = k
    · subst h0
      simp [Emplace, Find, h]
    · by_cases h1 : k0 = k1
      · subst h1
        simp [Emplace, Find, h0]
      · simp [Emplace, Find, h0, h1, ih]

theorem Find_isSome_iff (m : TMap K V) (k : K) :
    (Find m k).isSome = true ↔ k ∈ Keys m := by
  induction m with
  | nil => simp [Find, Keys]
  | cons p m ih =>
    obtain ⟨k0, v0⟩ := p
    by_cases h : k0 = k
    · simp [Find, Keys, h]
    · have h2 : ¬ k = k0 := fun e => h e.symm
      simp only [Keys] at ih
      simp [Find, Keys, h, h2, ih]

theorem Contains_iff (m : TMap K V) (k : K) : Contains m k = true ↔ k ∈ Keys m :=
  Find_isSome_iff m k

theorem Find_eq_none_iff (m : TMap K V) (k : K) : Find m k = none ↔ k ∉ Keys m := by
  rw [← Find_isSome_iff]
  cases Find m k <;> simp

theorem Keys_Emplace_of_mem (m : TMap K V) {k : K} (v : V) (h : k ∈ Keys m) :
    Keys (Emplace m k v) = Keys m := by
  induction m with
  | nil => simp [Keys] at h
  | cons p m ih =>
    obtain ⟨k0, v0⟩ := p
    by_cases h0 : k0 = k
    · simp [Emplace, Keys, h0]
    · have h1 : k ∈ Keys m := by
        simp only [Keys, List.map_cons, List.mem_cons] at h
        rcases h with h | h
        · exact absurd h.symm h0
        · exact h
      have := ih h1
      simp only [Keys] at this
      simp [Emplace, Keys, h0, this]

theorem Keys_Emplace_of_not_mem (m : TMap K V) {k : K} (v : V) (h : k ∉ Keys m) :
    Keys (Emplace m k v) = Keys m ++ [k] := by
  induction m with
  | nil => simp [Emplace, Keys]
  | cons p m ih =>
    obtain ⟨k0, v0⟩ := p
    simp only [Keys, List.map_cons, List.mem_cons, not_or] at h
    have h0 : ¬ k0 = k := fun e => h.1 e.symm
    have := ih h.2
    simp only [Keys] at this
    simp [Emplace, Keys, h0, this]

theorem mem_Keys_Emplace (m : TMap K V) (k k1 : K) (v : V) :
    k1 ∈ Keys (Emplace m k v) ↔ k1 = k ∨ k1 ∈ Keys m := by
  by_cases h : k ∈ Keys m
  · rw [Keys_Emplace_of_mem m v h]
    constructor
    · exact Or.inr
    · rintro (rfl | h1)
      · exact h
      · exact h1
  · rw [Keys_Emplace_of_not_mem m v h]
    simp [or_comm]

theorem Nodup_Keys_Emplace (m : TMap K V) (k : K) (v : V) (h : (Keys m).Nodup) :
    (Keys (Emplace m k v)).Nodup := by
  by_cases hk : k ∈ Keys m
  · rw [Keys_Emplace_of_mem m v hk]
    exact h
  · rw [Keys_Emplace_of_not_mem m v hk]
    exact List.Nodup.append h (List.nodup_singleton k) (by simpa using hk)

theorem Num_Emplace_of_mem (m : TMap K V) {k : K} (v : V) (h : k ∈ Keys m) :
    Num (Emplace m k v) = Num m := by
  have := congrArg List.length (Keys_Emplace_of_mem m v h)
  simpa [Keys, Num] using this

theorem Num_Emplace_of_not_mem (m : TMap K V) {k : K} (v : V) (h : k ∉ Keys m) :
    Num (Emplace m k v) = Num m + 1 := by
  have := congrArg List.length (Keys_Emplace_of_not_mem m v h)
  simpa [Keys, Num] using this

end TMap

/-! ## What one upsert does to each part of the state -/

theorem Replace_Heap (w : World) (n : FName) (a : Addr) : (w.Replace n a).Heap = w.Heap := by
  unfold World.Replace World.DeleteItem World.EmplaceItem
  split <;> [split; skip] <;> rfl

theorem Replace_Loads (w : World) (n : FName) (a : Addr) : (w.Replace n a).Loads = w.Loads := by
  unfold World.Replace World.DeleteItem World.EmplaceItem
  split <;> [split; skip] <;> rfl

theorem Replace_LoadedTextures (w : World) (n : FName) (a : Addr) :
    (w.Replace n a).Client.LoadedTextures = w.Client.LoadedTextures := by
  unfold World.Replace World.DeleteItem World.EmplaceItem
  split <;> [split; skip] <;> rfl

theorem Replace_BackgroundColor (w : World) (n : FName) (a : Addr) :
    (w.Replace n a).Client.BackgroundColor = w.Client.BackgroundColor := by
  unfold World.Replace World.DeleteItem World.EmplaceItem
  split <;> [split; skip] <;> rfl

theorem Replace_CanvasItems (w : World) (n : FName) (a : Addr) :
    (w.Replace n a).Client.CanvasItems = TMap.Emplace w.Client.CanvasItems n a := by
  unfold World.Replace World.DeleteItem World.EmplaceItem
  split <;> [split; skip] <;> rfl

theorem Replace_Deleted (w : World) (n : FName) (a : Addr) :
    (w.Replace n a).Deleted = deletedAfter w n := by
  unfold World.Replace World.DeleteItem World.EmplaceItem deletedAfter TMap.Contains
  cases h : TMap.Find w.Client.CanvasItems n <;> simp

theorem ResolveTexture_frame (E : Engine) (w : World) (p : FString) :
    (ResolveTexture E w p).2.Heap = w.Heap ∧
    (ResolveTexture E w p).2.Deleted = w.Deleted ∧
    (ResolveTexture E w p).2.Client.CanvasItems = w.Client.CanvasItems ∧
    (ResolveTexture E w p).2.Client.BackgroundColor = w.Client.BackgroundColor := by
  unfold ResolveTexture
  split
  · exact ⟨rfl, rfl, rfl, rfl⟩
  · split <;> exact ⟨rfl, rfl, rfl, rfl⟩

theorem ResolveTexture_miss (E : Engine) (w : World) (p : FString)
    (h : TMap.Contains w.Client.LoadedTextures (E.MakeFName p) = false) :
    (ResolveTexture E w p).1 = E.LoadObject w.Loads p ∧
    (ResolveTexture E w p).2.Loads = w.Loads ++ [p] ∧
    (ResolveTexture E w p).2.Client.LoadedTextures =
      TMap.Emplace w.Client.LoadedTextures (E.MakeFName p) (E.LoadObject w.Loads p) := by
  unfold ResolveTexture
  simp [h]

theorem ResolveTexture_hit (E : Engine) (w : World) (p : FString)
    (h : TMap.Contains w.Client.LoadedTextures (E.MakeFName p) = true) :
    TMap.Find w.Client.LoadedTextures (E.MakeFName p) = some (ResolveTexture E w p).1 ∧
    (ResolveTexture E w p).2.Loads = w.Loads ∧
    (ResolveTexture E w p).2.Client.LoadedTextures = w.Client.LoadedTextures := by
  unfold ResolveTexture
  unfold TMap.Contains at h
  cases hf : TMap.Find w.Client.LoadedTextures (E.MakeFName p) with
  | none => simp [hf] at h
  | some t => simp [TMap.Contains, hf]

theorem ResolveTexture_Find (E : Engine) (w : World) (p : FString) :
    TMap.Find (ResolveTexture E w p).2.Client.LoadedTextures (E.MakeFName p) =
      some (ResolveTexture E w p).1 := by
  cases h : TMap.Contains w.Client.LoadedTextures (E.MakeFName p) with
  | false =>
    obtain ⟨h1, -, h3⟩ := ResolveTexture_miss E w p h
    rw [h3, h1]
    exact TMap.Find_Emplace_self _ _ _
  | true =>
    obtain ⟨h1, -, h3⟩ := ResolveTexture_hit E w p h
    rw [h3]
    exact h1

theorem ResolveTexture_mono (E : Engine) (w : World) (p : FString) (k : FName)
    (v : Option UTexture2D) (hv : TMap.Find w.Client.LoadedTextures k = some v) :
    TMap.Find (ResolveTexture E w p).2.Client.LoadedTextures k = some v := by
  cases h : TMap.Contains w.Client.LoadedTextures (E.MakeFName p) with
  | false =>
    obtain ⟨-, -, h3⟩ := ResolveTexture_miss E w p h
    rw [h3]
    have hne : E.MakeFName p ≠ k := by
      intro e
      rw [e] at h
      simp [TMap.Contains, hv] at h
    rw [TMap.Find_Emplace_ne _ _ hne]
    exact hv
  | true =>
    obtain ⟨-, -, h3⟩ := ResolveTexture_hit E w p h
    rw [h3]
    exact hv

/-- What a successful `AddTile` computed: the texture it resolved and the state
after the resolution. -/
theorem AddTile_eq_some (E : Engine) (w w1 : World) (d : FTileData)
    (h : AddTile E w d = some w1) :
    ∃ Texture, (ResolveTexture E w d.TexturePath).1 = some Texture ∧
      w1 = ((ResolveTexture E w d.TexturePath).2.New
        (FCanvasItem.Tile (MakeTile d Texture))).2.Replace d.Name
          (ResolveTexture E w d.TexturePath).2.Heap.length := by
  unfold AddTile at h
  rcases hr : ResolveTexture E w d.TexturePath with ⟨t, w0⟩
  rw [hr] at h
  cases t with
  | none => simp at h
  | some Texture =>
    refine ⟨Texture, rfl, ?_⟩
    simp only [World.New] at h ⊢
    exact (Option.some.inj h).symm

theorem AddTile_isSome (E : Engine) (w : World) (d : FTileData)
    (h : (ResolveTexture E w d.TexturePath).1.isSome = true) :
    (AddTile E w d).isSome = true := by
  unfold AddTile
  rcases hr : ResolveTexture E w d.TexturePath with ⟨t, w0⟩
  rw [hr] at h
  cases t with
  | none => simp at h
  | some Texture => simp

theorem AddTile_eq_none (E : Engine) (w : World) (d : FTileData)
    (h : (ResolveTexture E w d.TexturePath).1 = none) :
    AddTile E w d = none := by
  unfold AddTile
  rcases hr : ResolveTexture E w d.TexturePath with ⟨t, w0⟩
  rw [hr] at h
  simp only at h
  subst h
  rfl

/-- The effect of one successful upsert on the free store, the scene and the
`delete` log. -/
theorem apply_spec (E : Engine) (w w1 : World) (op : Upsert)
    (h : op.apply E w = some w1) :
    (∃ it, w1.Heap = w.Heap ++ [it] ∧ Upsert.item E w1 op = some it) ∧
    w1.Client.CanvasItems = TMap.Emplace w.Client.CanvasItems op.Name w.Heap.length ∧
    w1.Deleted = deletedAfter w op.Name ∧
    w1.Client.BackgroundColor = w.Client.BackgroundColor := by
  cases op with
  | Box d =>
    simp only [Upsert.apply, Option.some.injEq] at h
    subst h
    simp only [AddBox, World.New, Upsert.Name, Upsert.item]
    refine ⟨⟨_, ?_, rfl⟩, ?_, ?_, ?_⟩
    · rw [Replace_Heap]
    · rw [Replace_CanvasItems]
    · rw [Replace_Deleted]; rfl
    · rw [Replace_BackgroundColor]
  | Text d =>
    simp only [Upsert.apply, Option.some.injEq] at h
    subst h
    simp only [AddText, World.New, Upsert.Name, Upsert.item]
    refine ⟨⟨_, ?_, rfl⟩, ?_, ?_, ?_⟩
    · rw [Replace_Heap]
    · rw [Replace_CanvasItems]
    · rw [Replace_Deleted]; rfl
    · rw [Replace_BackgroundColor]
  | Tile d =>
    simp only [Upsert.apply] at h
    obtain ⟨Texture, ht, rfl⟩ := AddTile_eq_some E w w1 d h
    obtain ⟨f1, f2, f3, f4⟩ := ResolveTexture_frame E w d.TexturePath
    have hf := ResolveTexture_Find E w d.TexturePath
    rw [ht] at hf
    simp only [World.New, Upsert.Name, Upsert.item]
    refine ⟨⟨FCanvasItem.Tile (MakeTile d Texture), ?_, ?_⟩, ?_, ?_, ?_⟩
    · rw [Replace_Heap, f1]
    · rw [Replace_LoadedTextures]
      simp only [hf]
    · rw [Replace_CanvasItems, f1, f3]
    · rw [Replace_Deleted]
      simp only [deletedAfter, f2, f3]
    · rw [Replace_BackgroundColor, f4]

/-- An upsert never removes or changes an entry of `LoadedTextures`. -/
theorem apply_cache_mono (E : Engine) (w w1 : World) (op : Upsert)
    (h : op.apply E w = some w1) (k : FName) (v : Option UTexture2D)
    (hv : TMap.Find w.Client.LoadedTextures k = some v) :
    TMap.Find w1.Client.LoadedTextures k = some v := by
  cases op with
  | Box d =>
    simp only [Upsert.apply, Option.some.injEq] at h
    subst h
    simp only [AddBox, World.New]
    rw [Replace_LoadedTextures]
    exact hv
  | Text d =>
    simp only [Upsert.apply, Option.some.injEq] at h
    subst h
    simp only [AddText, World.New]
    rw [Replace_LoadedTextures]
    exact hv
  | Tile d =>
    simp only [Upsert.apply] at h
    obtain ⟨Texture, -, rfl⟩ := AddTile_eq_some E w w1 d h
    simp only [World.New]
    rw [Replace_LoadedTextures]
    exact ResolveTexture_mono E w d.TexturePath k v hv

theorem run_cache_mono (E : Engine) (ops : List Upsert) (w w1 : World)
    (h : run E w ops = some w1) (k : FName) (v : Option UTexture2D)
    (hv : TMap.Find w.Client.LoadedTextures k = some v) :
    TMap.Find w1.Client.LoadedTextures k = some v := by
  induction ops generalizing w with
  | nil =>
    simp only [run, Option.some.injEq] at h
    subst h
    exact hv
  | cons op ops ih =>
    simp only [run] at h
    cases ha : op.apply E w with
    | none => simp [ha] at h
    | some w0 =>
      rw [ha] at h
      exact ih w0 h (apply_cache_mono E w w0 op ha k v hv)

theorem item_mono (E : Engine) (w w1 : World) (op : Upsert) (it : FCanvasItem)
    (hm : ∀ k v, TMap.Find w.Client.LoadedTextures k = some v →
      TMap.Find w1.Client.LoadedTextures k = some v)
    (h : Upsert.item E w op = some it) : Upsert.item E w1 op = some it := by
  cases op with
  | Box d => exact h
  | Text d => exact h
  | Tile d =>
    simp only [Upsert.item] at h ⊢
    cases hf : TMap.Find w.Client.LoadedTextures (E.MakeFName d.TexturePath) with
    | none => simp [hf] at h
    | some t =>
      rw [hm _ _ hf]
      rw [hf] at h
      exact h

/-! ## What a sequence of upserts does -/

theorem run_cons_some (E : Engine) (op : Upsert) (ops : List Upsert) (w w1 : World)
    (h : run E w (op :: ops) = some w1) :
    ∃ w0, op.apply E w = some w0 ∧ run E w0 ops = some w1 := by
  simp only [run] at h
  cases ha : op.apply E w with
  | none => simp [ha] at h
  | some w0 =>
    rw [ha] at h
    exact ⟨w0, rfl, h⟩

theorem run_Heap (E : Engine) (ops : List Upsert) (w w1 : World)
    (h : run E w ops = some w1) :
    ∃ l, w1.Heap = w.Heap ++ l ∧ l.length = ops.length := by
  induction ops generalizing w with
  | nil =>
    simp only [run, Option.some.injEq] at h
    subst h
    exact ⟨[], by simp, rfl⟩
  | cons op ops ih =>
    obtain ⟨w0, ha, hr⟩ := run_cons_some E op ops w w1 h
    obtain ⟨⟨it, hh, -⟩, -⟩ := apply_spec E w w0 op ha
    obtain ⟨l, hl, hlen⟩ := ih w0 hr
    refine ⟨it :: l, ?_, by simp [hlen]⟩
    rw [hl, hh]
    simp

theorem run_Find_of_not_mem (E : Engine) (ops : List Upsert) (w w1 : World)
    (h : run E w ops = some w1) (n : FName) (hn : n ∉ ops.map Upsert.Name) :
    TMap.Find w1.Client.CanvasItems n = TMap.Find w.Client.CanvasItems n := by
  induction ops generalizing w with
  | nil =>
    simp only [run, Option.some.injEq] at h
    subst h
    rfl
  | cons op ops ih =>
    obtain ⟨w0, ha, hr⟩ := run_cons_some E op ops w w1 h
    obtain ⟨-, hc, -⟩ := apply_spec E w w0 op ha
    simp only [List.map_cons, List.mem_cons, not_or] at hn
    rw [ih w0 hr hn.2, hc]
    exact TMap.Find_Emplace_ne _ _ (fun e => hn.1 e.symm)

theorem run_mem_Keys (E : Engine) (ops : List Upsert) (w w1 : World)
    (h : run E w ops = some w1) (n : FName) :
    n ∈ TMap.Keys w1.Client.CanvasItems ↔
      n ∈ TMap.Keys w.Client.CanvasItems ∨ n ∈ ops.map Upsert.Name := by
  induction ops generalizing w with
  | nil =>
    simp only [run, Option.some.injEq] at h
    subst h
    simp
  | cons op ops ih =>
    obtain ⟨w0, ha, hr⟩ := run_cons_some E op ops w w1 h
    obtain ⟨-, hc, -⟩ := apply_spec E w w0 op ha
    rw [ih w0 hr, hc, TMap.mem_Keys_Emplace]
    simp only [List.map_cons, List.mem_cons]
    tauto

theorem run_Nodup_Keys (E : Engine) (ops : List Upsert) (w w1 : World)
    (h : run E w ops = some w1) (hw : (TMap.Keys w.Client.CanvasItems).Nodup) :
    (TMap.Keys w1.Client.CanvasItems).Nodup := by
  induction ops generalizing w with
  | nil =>
    simp only [run, Option.some.injEq] at h
    subst h
    exact hw
  | cons op ops ih =>
    obtain ⟨w0, ha, hr⟩ := run_cons_some E op ops w w1 h
    obtain ⟨-, hc, -⟩ := apply_spec E w w0 op ha
    apply ih w0 hr
    rw [hc]
    exact TMap.Nodup_Keys_Emplace _ _ _ hw

/-- The upsert at position `i` that no later upsert of the sequence shares its
name with: the scene holds under its name the address of the item it created,
and the free store holds that item. -/
theorem run_last (E : Engine) (ops : List Upsert) (w w1 : World)
    (h : run E w ops = some w1) (i : Nat) (op : Upsert) (hi : ops[i]? = some op)
    (hlast : ∀ j op1, i < j → ops[j]? = some op1 → op1.Name ≠ op.Name) :
    TMap.Find w1.Client.CanvasItems op.Name = some (w.Heap.length + i) ∧
    w1.Heap[w.Heap.length + i]? = Upsert.item E w1 op := by
  induction ops generalizing w i with
  | nil => simp at hi
  | cons op0 ops ih =>
    obtain ⟨w0, ha, hr⟩ := run_cons_some E op0 ops w w1 h
    obtain ⟨⟨it, hh, hit⟩, hc, -⟩ := apply_spec E w w0 op0 ha
    cases i with
    | zero =>
      simp only [List.getElem?_cons_zero, Option.some.injEq] at hi
      subst hi
      have hn : op0.Name ∉ ops.map Upsert.Name := by
        intro hm
        obtain ⟨op1, hm1, hm2⟩ := List.mem_map.1 hm
        obtain ⟨j, hj⟩ := List.getElem?_of_mem hm1
        exact hlast (j + 1) op1 (Nat.succ_pos j) (by simpa using hj) hm2
      constructor
      · rw [run_Find_of_not_mem E ops w0 w1 hr _ hn, hc]
        simpa using TMap.Find_Emplace_self _ _ _
      · obtain ⟨l, hl, -⟩ := run_Heap E ops w0 w1 hr
        rw [item_mono E w0 w1 op0 it (fun k v => run_cache_mono E ops w0 w1 hr k v) hit]
        rw [hl, hh, List.append_assoc, Nat.add_zero,
          List.getElem?_append_right (Nat.le_refl _)]
        simp
    | succ i =>
      simp only [List.getElem?_cons_succ] at hi
      have hl1 : ∀ j op1, i < j → ops[j]? = some op1 → op1.Name ≠ op.Name := by
        intro j op1 hj hj1
        exact hlast (j + 1) op1 (Nat.succ_lt_succ hj) (by simpa using hj1)
      have := ih w0 hr i hi hl1
      have hlen : w0.Heap.length + i = w.Heap.length + (i + 1) := by
        rw [hh]
        simp
        omega
      rw [hlen] at this
      exact this

/-! ## Upserts that cannot fail -/

theorem ResolveTexture_isSome (E : Engine) (hE : LoadsSucceed E) (w : World)
    (hw : NoNullTexture w) (p : FString) :
    (ResolveTexture E w p).1.isSome = true ∧ NoNullTexture (ResolveTexture E w p).2 := by
  cases h : TMap.Contains w.Client.LoadedTextures (E.MakeFName p) with
  | false =>
    obtain ⟨h1, -, h3⟩ := ResolveTexture_miss E w p h
    refine ⟨by rw [h1]; exact hE _ _, ?_⟩
    intro k hk
    rw [h3] at hk
    by_cases e : E.MakeFName p = k
    · subst e
      rw [TMap.Find_Emplace_self] at hk
      have := hE w.Loads p
      rw [Option.some.inj hk] at this
      simp at this
    · rw [TMap.Find_Emplace_ne _ _ e] at hk
      exact hw k hk
  | true =>
    obtain ⟨h1, -, h3⟩ := ResolveTexture_hit E w p h
    constructor
    · cases ht : (ResolveTexture E w p).1 with
      | none =>
        rw [ht] at h1
        exact absurd h1 (hw _)
      | some t => rfl
    · intro k hk
      rw [h3] at hk
      exact hw k hk

theorem apply_isSome (E : Engine) (hE : LoadsSucceed E) (w : World)
    (hw : NoNullTexture w) (op : Upsert) :
    ∃ w1, op.apply E w = some w1 ∧ NoNullTexture w1 := by
  cases op with
  | Box d =>
    refine ⟨AddBox w d, rfl, ?_⟩
    intro k
    simp only [AddBox, World.New]
    rw [Replace_LoadedTextures]
    exact hw k
  | Text d =>
    refine ⟨AddText E w d, rfl, ?_⟩
    intro k
    simp only [AddText, World.New]
    rw [Replace_LoadedTextures]
    exact hw k
  | Tile d =>
    obtain ⟨h1, h2⟩ := ResolveTexture_isSome E hE w hw d.TexturePath
    have h3 := AddTile_isSome E w d h1
    cases ha : AddTile E w d with
    | none => simp [ha] at h3
    | some w1 =>
      refine ⟨w1, ha, ?_⟩
      obtain ⟨Texture, -, rfl⟩ := AddTile_eq_some E w w1 d ha
      intro k
      simp only [World.New]
      rw [Replace_LoadedTextures]
      exact h2 k

theorem run_isSome (E : Engine) (hE : LoadsSucceed E) (ops : List Upsert) (w : World)
    (hw : NoNullTexture w) : ∃ w1, run E w ops = some w1 ∧ NoNullTexture w1 := by
  induction ops generalizing w with
  | nil => exact ⟨w, rfl, hw⟩
  | cons op ops ih =>
    obtain ⟨w0, ha, hw0⟩ := apply_isSome E hE w hw op
    obtain ⟨w1, hr, hw1⟩ := ih w0 hw0
    refine ⟨w1, ?_, hw1⟩
    simp only [run, ha, Option.some_bind]
    exact hr

theorem NoNullTexture_fresh : NoNullTexture World.fresh := by
  intro k
  simp [World.fresh, FCustomViewportClient.ctor, TMap.Find]

theorem LoadsSucceed_demoEngine : LoadsSucceed demoEngine := fun _ _ => rfl

/-! ## The scene after a sequence of upserts -/

/-- C1: a sequence of upserts applied to a new client, the engine finding every
texture, runs to a state in which the scene has exactly one entry for each name
that occurs in the sequence and none for any other name; under the name of an
upsert that is the last one of its name the scene holds the address of the item
that this upsert created, and the free store holds at that address the item
built from its record, whatever kind the earlier upserts of the name had. -/
theorem scene_holds_last_upsert_of_each_name (E : Engine) (hE : LoadsSucceed E)
    (ops : List Upsert) :
    ∃ w, run E World.fresh ops = some w ∧
      (TMap.Keys w.Client.CanvasItems).Nodup ∧
      (∀ n, n ∈ TMap.Keys w.Client.CanvasItems ↔ n ∈ ops.map Upsert.Name) ∧
      TMap.Num w.Client.CanvasItems = ((ops.map Upsert.Name).dedup).length ∧
      (∀ n, n ∉ ops.map Upsert.Name → TMap.Find w.Client.CanvasItems n = none) ∧
      (∀ i op, ops[i]? = some op →
        (∀ j op1, i < j → ops[j]? = some op1 → op1.Name ≠ op.Name) →
        TMap.Find w.Client.CanvasItems op.Name = some i ∧
        ∃ it, w.Heap[i]? = some it ∧ Upsert.item E w op = some it) := by
  obtain ⟨w, hr, -⟩ := run_isSome E hE ops World.fresh NoNullTexture_fresh
  have hnd : (TMap.Keys w.Client.CanvasItems).Nodup :=
    run_Nodup_Keys E ops World.fresh w hr
      (by simp [World.fresh, FCustomViewportClient.ctor, TMap.Keys])
  have hmem : ∀ n, n ∈ TMap.Keys w.Client.CanvasItems ↔ n ∈ ops.map Upsert.Name := by
    intro n
    rw [run_mem_Keys E ops World.fresh w hr n]
    simp [World.fresh, FCustomViewportClient.ctor, TMap.Keys]
  refine ⟨w, hr, hnd, hmem, ?_, ?_, ?_⟩
  · have hp : List.Perm (TMap.Keys w.Client.CanvasItems) ((ops.map Upsert.Name).dedup) := by
      rw [List.perm_ext_iff_of_nodup hnd (List.nodup_dedup _)]
      intro n
      rw [hmem n, List.mem_dedup]
    have := hp.length_eq
    simpa [TMap.Keys, TMap.Num] using this
  · intro n hn
    rw [TMap.Find_eq_none_iff, hmem n]
    exact hn
  · intro i op hi hlast
    obtain ⟨h1, h2⟩ := run_last E ops World.fresh w hr i op hi hlast
    have h0 : World.fresh.Heap.length = 0 := rfl
    rw [h0, Nat.zero_add] at h1 h2
    refine ⟨h1, ?_⟩
    obtain ⟨l, hl, hlen⟩ := run_Heap E ops World.fresh w hr
    have hil : i < w.Heap.length := by
      rw [hl]
      have := (List.getElem?_eq_some_iff.1 hi).1
      simp [World.fresh, hlen]
      exact this
    refine ⟨w.Heap[i], List.getElem?_eq_getElem hil, ?_⟩
    rw [← h2]
    exact List.getElem?_eq_getElem hil

/-- C1, at a sequence in which a box and then a text are stored under the same
name: the scene has two entries, and the one under that name is the text. -/
theorem scene_holds_last_upsert_of_each_name_witness :
    LoadsSucceed demoEngine ∧
    ∃ w, run demoEngine World.fresh demoOps = some w ∧
      TMap.Num w.Client.CanvasItems = ((demoOps.map Upsert.Name).dedup).length ∧
      TMap.Find w.Client.CanvasItems ⟨"A"⟩ = some 2 ∧
      ∃ it, w.Heap[2]? = some it ∧
        Upsert.item demoEngine w (Upsert.Text demoTextA) = some it := by
  refine ⟨LoadsSucceed_demoEngine, ?_⟩
  obtain ⟨w, h1, -, -, h4, -, h6⟩ :=
    scene_holds_last_upsert_of_each_name demoEngine LoadsSucceed_demoEngine demoOps
  refine ⟨w, h1, h4, ?_⟩
  have hlast : ∀ j op1, 2 < j → demoOps[j]? = some op1 →
      op1.Name ≠ (Upsert.Text demoTextA).Name := by
    intro j op1 hj hj1
    have hlen : demoOps.length ≤ j := hj
    rw [List.getElem?_eq_none hlen] at hj1
    exact absurd hj1 (by simp)
  exact h6 2 (Upsert.Text demoTextA) rfl hlast

/-! ## The size of a tile -/

theorem ResolveTexture_of_Find (E : Engine) (w : World) (p : FString)
    (t : Option UTexture2D)
    (h : TMap.Find w.Client.LoadedTextures (E.MakeFName p) = some t) :
    (ResolveTexture E w p).1 = t := by
  have hc : TMap.Contains w.Client.LoadedTextures (E.MakeFName p) = true := by
    simp [TMap.Contains, h]
  obtain ⟨h1, -⟩ := ResolveTexture_hit E w p hc
  rw [h] at h1
  exact (Option.some.inj h1).symm

theorem AddTile_cache (E : Engine) (w w1 : World) (d : FTileData)
    (h : AddTile E w d = some w1) :
    TMap.Find w1.Client.LoadedTextures (E.MakeFName d.TexturePath) =
      some (ResolveTexture E w d.TexturePath).1 := by
  obtain ⟨Texture, -, rfl⟩ := AddTile_eq_some E w w1 d h
  simp only [World.New]
  rw [Replace_LoadedTextures]
  exact ResolveTexture_Find E w d.TexturePath

/-- When the texture pointer that `AddTile` resolves is not null, `AddTile`
returns, and the scene holds under the name of the record the address of a new
tile built from the record and that texture. -/
theorem AddTile_stored (E : Engine) (w : World) (d : FTileData) (tex : UTexture2D)
    (hres : (ResolveTexture E w d.TexturePath).1 = some tex) :
    ∃ w1, AddTile E w d = some w1 ∧
      TMap.Find w1.Client.CanvasItems d.Name = some w.Heap.length ∧
      w1.Heap[w.Heap.length]? = some (FCanvasItem.Tile (MakeTile d tex)) := by
  have hs := AddTile_isSome E w d (by rw [hres]; rfl)
  cases ha : AddTile E w d with
  | none => simp [ha] at hs
  | some w1 =>
    refine ⟨w1, rfl, ?_, ?_⟩
    · obtain ⟨-, hc, -⟩ := apply_spec E w w1 (Upsert.Tile d) ha
      rw [hc]
      exact TMap.Find_Emplace_self _ _ _
    · obtain ⟨Texture, ht, rfl⟩ := AddTile_eq_some E w w1 d ha
      rw [hres] at ht
      obtain rfl := Option.some.inj ht
      obtain ⟨f1, -⟩ := ResolveTexture_frame E w d.TexturePath
      simp only [World.New]
      rw [Replace_Heap, f1]
      simp

/-- C2, as the code has it: when the texture that `AddTile` resolves for the
path of the record (out of `LoadedTextures`, or from `LoadObject` when the path
is new) has width `W` and height `H > 0`, and the record asks for the size
`(sx, sy)`, then `AddTile` returns and the tile it stores under the name of the
record has drawn width `sx * W / H` and drawn height `sy`. -/
theorem tile_drawn_size (E : Engine) (w : World) (d : FTileData) (tex : UTexture2D)
    (hres : (ResolveTexture E w d.TexturePath).1 = some tex) (hH : 0 < tex.SizeY) :
    ∃ w1 a t, AddTile E w d = some w1 ∧
      TMap.Find w1.Client.CanvasItems d.Name = some a ∧
      w1.Heap[a]? = some (FCanvasItem.Tile t) ∧
      t.Size.X = d.Size.X * (tex.SizeX : ℚ) / (tex.SizeY : ℚ) ∧
      t.Size.Y = d.Size.Y := by
  obtain ⟨w1, h1, h2, h3⟩ := AddTile_stored E w d tex hres
  have hne : (tex.SizeY : ℚ) ≠ 0 := by
    have : (0 : ℚ) < (tex.SizeY : ℚ) := by exact_mod_cast hH
    exact ne_of_gt this
  refine ⟨w1, w.Heap.length, MakeTile d tex, h1, h2, h3, ?_, rfl⟩
  simp only [MakeTile]
  field_simp

/-- C2, as the code has it, for a texture of 200 by 100: the requested size
`(100, 50)` gives the drawn size `(200, 50)`, and a second upsert of the same
name with the requested size `(100, 200)` gives the drawn size `(200, 200)`. -/
theorem tile_drawn_size_witness :
    (∃ w1 a t, AddTile demoEngine World.fresh (demoTileT 100 50) = some w1 ∧
      TMap.Find w1.Client.CanvasItems ⟨"T"⟩ = some a ∧
      w1.Heap[a]? = some (FCanvasItem.Tile t) ∧ t.Size.X = 200 ∧ t.Size.Y = 50 ∧
      ∃ w2 b u, AddTile demoEngine w1 (demoTileT 100 200) = some w2 ∧
        TMap.Find w2.Client.CanvasItems ⟨"T"⟩ = some b ∧
        w2.Heap[b]? = some (FCanvasItem.Tile u) ∧ u.Size.X = 200 ∧ u.Size.Y = 200) := by
  obtain ⟨w1, a, t, h1, h2, h3, h4, h5⟩ :=
    tile_drawn_size demoEngine World.fresh (demoTileT 100 50)
      { SizeX := 200, SizeY := 100, Resource := 0 } rfl (by decide)
  have hc := AddTile_cache demoEngine World.fresh w1 (demoTileT 100 50) h1
  have hres : (ResolveTexture demoEngine w1 (demoTileT 100 200).TexturePath).1 =
      some { SizeX := 200, SizeY := 100, Resource := 0 } :=
    ResolveTexture_of_Find demoEngine w1 _ _ hc
  obtain ⟨w2, b, u, k1, k2, k3, k4, k5⟩ :=
    tile_drawn_size demoEngine w1 (demoTileT 100 200)
      { SizeX := 200, SizeY := 100, Resource := 0 } hres (by decide)
  refine ⟨w1, a, t, h1, h2, h3, ?_, ?_, w2, b, u, k1, k2, k3, ?_, ?_⟩
  · rw [h4]; norm_num [demoTileT]
  · rw [h5]; norm_num [demoTileT]
  · rw [k4]; norm_num [demoTileT]
  · rw [k5]; norm_num [demoTileT]

/-- C2, as the claim has it, fails: for the texture of 200 by 100 and the
requested size `(100, 50)` the stored tile has drawn width `200`, which is
`sx * W / H`, and not `sy * W / H = 100`. -/
theorem tile_width_from_height_counterexample :
    ∃ w1 t, AddTile demoEngine World.fresh (demoTileT 100 50) = some w1 ∧
      TMap.Find w1.Client.CanvasItems ⟨"T"⟩ = some 0 ∧
      w1.Heap[0]? = some (FCanvasItem.Tile t) ∧
      t.Size = ⟨200, 50⟩ ∧
      t.Size.X ≠ (demoTileT 100 50).Size.Y * (200 : ℚ) / (100 : ℚ) := by
  obtain ⟨w1, h1, h2, h3⟩ :=
    AddTile_stored demoEngine World.fresh (demoTileT 100 50)
      { SizeX := 200, SizeY := 100, Resource := 0 } rfl
  refine ⟨w1, _, h1, h2, h3, ?_, ?_⟩ <;> norm_num [MakeTile, demoTileT]

/-! ## The texture cache -/

/-- What one successful upsert does to the load log and to `LoadedTextures`:
a tile whose path is not yet a key loads it and stores the result, every other
upsert leaves both as they are. -/
theorem apply_Loads (E : Engine) (w w1 : World) (op : Upsert)
    (h : op.apply E w = some w1) :
    (w1.Loads = w.Loads ∧ w1.Client.LoadedTextures = w.Client.LoadedTextures ∧
      ∀ d, op = Upsert.Tile d →
        TMap.Contains w.Client.LoadedTextures (E.MakeFName d.TexturePath) = true) ∨
    (∃ d, op = Upsert.Tile d ∧
      TMap.Contains w.Client.LoadedTextures (E.MakeFName d.TexturePath) = false ∧
      w1.Loads = w.Loads ++ [d.TexturePath] ∧
      w1.Client.LoadedTextures = TMap.Emplace w.Client.LoadedTextures
        (E.MakeFName d.TexturePath) (E.LoadObject w.Loads d.TexturePath)) := by
  cases op with
  | Box d =>
    simp only [Upsert.apply, Option.some.injEq] at h
    subst h
    left
    simp only [AddBox, World.New]
    rw [Replace_Loads, Replace_LoadedTextures]
    exact ⟨rfl, rfl, fun d h => by cases h⟩
  | Text d =>
    simp only [Upsert.apply, Option.some.injEq] at h
    subst h
    left
    simp only [AddText, World.New]
    rw [Replace_Loads, Replace_LoadedTextures]
    exact ⟨rfl, rfl, fun d h => by cases h⟩
  | Tile d =>
    simp only [Upsert.apply] at h
    obtain ⟨Texture, -, rfl⟩ := AddTile_eq_some E w w1 d h
    simp only [World.New]
    rw [Replace_Loads, Replace_LoadedTextures]
    cases hc : TMap.Contains w.Client.LoadedTextures (E.MakeFName d.TexturePath) with
    | false =>
      right
      obtain ⟨-, h2, h3⟩ := ResolveTexture_miss E w d.TexturePath hc
      exact ⟨d, rfl, hc, h2, h3⟩
    | true =>
      left
      obtain ⟨-, h2, h3⟩ := ResolveTexture_hit E w d.TexturePath hc
      refine ⟨h2, h3, ?_⟩
      intro d1 hd
      cases hd
      exact hc

theorem apply_CacheMatchesLoads (E : Engine) (w w1 : World) (op : Upsert)
    (h : op.apply E w = some w1) (hw : CacheMatchesLoads E w) : CacheMatchesLoads E w1 := by
  rcases apply_Loads E w w1 op h with ⟨h1, h2, -⟩ | ⟨d, -, hc, h2, h3⟩
  · unfold CacheMatchesLoads
    rw [h1, h2]
    exact hw
  · have hk : E.MakeFName d.TexturePath ∉ TMap.Keys w.Client.LoadedTextures := by
      rw [← TMap.Contains_iff, hc]
      simp
    unfold CacheMatchesLoads
    rw [h2, h3]
    refine ⟨?_, TMap.Nodup_Keys_Emplace _ _ _ hw.2⟩
    rw [TMap.Keys_Emplace_of_not_mem _ _ hk, hw.1]
    simp

theorem run_CacheMatchesLoads (E : Engine) (ops : List Upsert) (w w1 : World)
    (h : run E w ops = some w1) (hw : CacheMatchesLoads E w) : CacheMatchesLoads E w1 := by
  induction ops generalizing w with
  | nil =>
    simp only [run, Option.some.injEq] at h
    subst h
    exact hw
  | cons op ops ih =>
    obtain ⟨w0, ha, hr⟩ := run_cons_some E op ops w w1 h
    exact ih w0 hr (apply_CacheMatchesLoads E w w0 op ha hw)

theorem CacheMatchesLoads_fresh (E : Engine) : CacheMatchesLoads E World.fresh := by
  simp [CacheMatchesLoads, World.fresh, FCustomViewportClient.ctor, TMap.Keys]

theorem run_append_some (E : Engine) (pre post : List Upsert) (w w1 : World)
    (h : run E w (pre ++ post) = some w1) :
    ∃ w0, run E w pre = some w0 ∧ run E w0 post = some w1 := by
  induction pre generalizing w with
  | nil => exact ⟨w, rfl, h⟩
  | cons op pre ih =>
    obtain ⟨wa, ha, hr⟩ := run_cons_some E op (pre ++ post) w w1 h
    obtain ⟨w0, h1, h2⟩ := ih wa hr
    refine ⟨w0, ?_, h2⟩
    simp only [run, ha, Option.some_bind]
    exact h1

/-- A key of `LoadedTextures` after a sequence of upserts was a key before or
is the name of the path of one of the tiles of the sequence. -/
theorem run_cache_Keys (E : Engine) (ops : List Upsert) (w w1 : World)
    (h : run E w ops = some w1) (k : FName)
    (hk : k ∈ TMap.Keys w1.Client.LoadedTextures) :
    k ∈ TMap.Keys w.Client.LoadedTextures ∨
      ∃ d, Upsert.Tile d ∈ ops ∧ E.MakeFName d.TexturePath = k := by
  induction ops generalizing w with
  | nil =>
    simp only [run, Option.some.injEq] at h
    subst h
    exact Or.inl hk
  | cons op ops ih =>
    obtain ⟨w0, ha, hr⟩ := run_cons_some E op ops w w1 h
    rcases ih w0 hr with h0 | ⟨d, hd, hd1⟩
    · rcases apply_Loads E w w0 op ha with ⟨-, h2, -⟩ | ⟨d, hop, -, -, h3⟩
      · rw [h2] at h0
        exact Or.inl h0
      · rw [h3, TMap.mem_Keys_Emplace] at h0
        rcases h0 with h0 | h0
        · exact Or.inr ⟨d, by rw [hop]; exact List.mem_cons_self _ _, h0.symm⟩
        · exact Or.inl h0
    · exact Or.inr ⟨d, List.mem_cons_of_mem _ hd, hd1⟩

/-- After a sequence of upserts that ran, the path of each of its tiles is a
key of `LoadedTextures`. -/
theorem run_Tile_cached (E : Engine) (ops : List Upsert) (w w1 : World)
    (h : run E w ops = some w1) (d : FTileData) (hd : Upsert.Tile d ∈ ops) :
    TMap.Contains w1.Client.LoadedTextures (E.MakeFName d.TexturePath) = true := by
  induction ops generalizing w with
  | nil => simp at hd
  | cons op ops ih =>
    obtain ⟨w0, ha, hr⟩ := run_cons_some E op ops w w1 h
    rcases List.mem_cons.1 hd with e | hd1
    · subst e
      simp only [Upsert.apply] at ha
      have hc := AddTile_cache E w w0 d ha
      have := run_cache_mono E ops w0 w1 hr _ _ hc
      simp [TMap.Contains, this]
    · exact ih w0 hr hd1

/-- The item at the address that the upsert at position `i` allocated is the
item built from its record. -/
theorem run_item (E : Engine) (ops : List Upsert) (w w1 : World)
    (h : run E w ops = some w1) (i : Nat) (op : Upsert) (hi : ops[i]? = some op) :
    ∃ it, w1.Heap[w.Heap.length + i]? = some it ∧ Upsert.item E w1 op = some it := by
  induction ops generalizing w i with
  | nil => simp at hi
  | cons op0 ops ih =>
    obtain ⟨w0, ha, hr⟩ := run_cons_some E op0 ops w w1 h
    obtain ⟨⟨it, hh, hit⟩, -⟩ := apply_spec E w w0 op0 ha
    cases i with
    | zero =>
      simp only [List.getElem?_cons_zero, Option.some.injEq] at hi
      subst hi
      obtain ⟨l, hl, -⟩ := run_Heap E ops w0 w1 hr
      refine ⟨it, ?_, item_mono E w0 w1 op0 it (fun k v => run_cache_mono E ops w0 w1 hr k v) hit⟩
      rw [hl, hh, List.append_assoc, Nat.add_zero,
        List.getElem?_append_right (Nat.le_refl _)]
      simp
    | succ i =>
      simp only [List.getElem?_cons_succ] at hi
      have := ih w0 hr i hi
      have hlen : w0.Heap.length + i = w.Heap.length + (i + 1) := by
        rw [hh]
        simp
        omega
      rw [hlen] at this
      exact this

theorem Draw_fst (w : World) (Canvas : FCanvas) : (Draw w Canvas).1 = w := rfl

/-- C3: in a sequence of upserts that ran on a new client, two paths being the
same when they give the same `FName`, as in the code: `LoadObject` is called for
a path at most once; the first tile that refers to a path calls it and stores
what it returns, and that is what `LoadedTextures` still holds under the path
at the end; a tile that refers to a path already referred to does not call it;
every tile is built from the texture that `LoadedTextures` holds under its path;
and an entry of `LoadedTextures` is neither removed nor changed by an upsert or
by `Draw`. -/
theorem texture_loaded_once_and_kept (E : Engine) (ops : List Upsert) (w : World)
    (h : run E World.fresh ops = some w) :
    (∀ p, w.Loads.count p ≤ 1) ∧
    (∀ pre d post, ops = pre ++ Upsert.Tile d :: post →
      (∀ d1, Upsert.Tile d1 ∈ pre →
        E.MakeFName d1.TexturePath ≠ E.MakeFName d.TexturePath) →
      ∃ w0 w1, run E World.fresh pre = some w0 ∧ AddTile E w0 d = some w1 ∧
        d.TexturePath ∉ w0.Loads ∧ w1.Loads = w0.Loads ++ [d.TexturePath] ∧
        TMap.Find w.Client.LoadedTextures (E.MakeFName d.TexturePath) =
          some (E.LoadObject w0.Loads d.TexturePath)) ∧
    (∀ pre d post, ops = pre ++ Upsert.Tile d :: post →
      (∃ d1, Upsert.Tile d1 ∈ pre ∧
        E.MakeFName d1.TexturePath = E.MakeFName d.TexturePath) →
      ∃ w0 w1, run E World.fresh pre = some w0 ∧ AddTile E w0 d = some w1 ∧
        w1.Loads = w0.Loads) ∧
    (∀ (i : Nat) (d : FTileData), ops[i]? = some (Upsert.Tile d) →
      ∃ tex, TMap.Find w.Client.LoadedTextures (E.MakeFName d.TexturePath) = some (some tex) ∧
        w.Heap[i]? = some (FCanvasItem.Tile (MakeTile d tex))) ∧
    (∀ (u u1 : World) (op : Upsert) (k : FName) (v : Option UTexture2D),
      op.apply E u = some u1 → TMap.Find u.Client.LoadedTextures k = some v →
      TMap.Find u1.Client.LoadedTextures k = some v) ∧
    (∀ (u : World) (Canvas : FCanvas) (k : FName) (v : Option UTexture2D),
      TMap.Find u.Client.LoadedTextures k = some v →
      TMap.Find (Draw u Canvas).1.Client.LoadedTextures k = some v) := by
  refine ⟨?_, ?_, ?_, ?_, ?_, ?_⟩
  · have hm := run_CacheMatchesLoads E ops World.fresh w h (CacheMatchesLoads_fresh E)
    have hnd : w.Loads.Nodup := by
      have := hm.2
      rw [hm.1] at this
      exact List.Nodup.of_map _ this
    exact fun p => List.nodup_iff_count_le_one.1 hnd p
  · intro pre d post hops hfirst
    subst hops
    obtain ⟨w0, h0, hr⟩ := run_append_some E pre _ World.fresh w h
    obtain ⟨w1, ha, hr1⟩ := run_cons_some E _ post w0 w hr
    have hm := run_CacheMatchesLoads E pre World.fresh w0 h0 (CacheMatchesLoads_fresh E)
    have hk : E.MakeFName d.TexturePath ∉ TMap.Keys w0.Client.LoadedTextures := by
      intro hk
      rcases run_cache_Keys E pre World.fresh w0 h0 _ hk with h1 | ⟨d1, hd1, hd2⟩
      · simp [World.fresh, FCustomViewportClient.ctor, TMap.Keys] at h1
      · exact hfirst d1 hd1 hd2
    have hc : TMap.Contains w0.Client.LoadedTextures (E.MakeFName d.TexturePath) = false := by
      cases hc : TMap.Contains w0.Client.LoadedTextures (E.MakeFName d.TexturePath) with
      | false => rfl
      | true => exact absurd ((TMap.Contains_iff _ _).1 hc) hk
    refine ⟨w0, w1, h0, ha, ?_, ?_, ?_⟩
    · intro hp
      apply hk
      rw [hm.1]
      exact List.mem_map_of_mem _ hp
    · rcases apply_Loads E w0 w1 _ ha with ⟨-, -, h3⟩ | ⟨d2, hop, -, h2, -⟩
      · have := h3 d rfl
        rw [hc] at this
        cases this
      · cases hop
        exact h2
    · apply run_cache_mono E post w1 w hr1
      have := AddTile_cache E w0 w1 d ha
      rw [(ResolveTexture_miss E w0 d.TexturePath hc).1] at this
      exact this
  · intro pre d post hops hseen
    subst hops
    obtain ⟨d1, hd1, hd2⟩ := hseen
    obtain ⟨w0, h0, hr⟩ := run_append_some E pre _ World.fresh w h
    obtain ⟨w1, ha, hr1⟩ := run_cons_some E _ post w0 w hr
    have hc := run_Tile_cached E pre World.fresh w0 h0 d1 hd1
    rw [hd2] at hc
    refine ⟨w0, w1, h0, ha, ?_⟩
    rcases apply_Loads E w0 w1 _ ha with ⟨h1, -, -⟩ | ⟨d2, hop, hc2, -, -⟩
    · exact h1
    · cases hop
      rw [hc] at hc2
      cases hc2
  · intro i d hi
    obtain ⟨it, h1, h2⟩ := run_item E ops World.fresh w h i _ hi
    have h0 : World.fresh.Heap.length = 0 := rfl
    rw [h0, Nat.zero_add] at h1
    simp only [Upsert.item] at h2
    cases hf : TMap.Find w.Client.LoadedTextures (E.MakeFName d.TexturePath) with
    | none => simp [hf] at h2
    | some t =>
      cases t with
      | none => simp [hf] at h2
      | some tex =>
        rw [hf] at h2
        simp only [Option.some.injEq] at h2
        exact ⟨tex, rfl, by rw [h1, h2]⟩
  · intro u u1 op k v ha hv
    exact apply_cache_mono E u u1 op ha k v hv
  · intro u Canvas k v hv
    rw [Draw_fst]
    exact hv

/-- C3, at two tiles on the same path: the path is loaded once, by the first
tile, and both tiles carry the resource of that load. -/
theorem texture_loaded_once_and_kept_witness :
    ∃ w, run demoEngine World.fresh demoTwoTiles = some w ∧
      w.Loads.count "tex1" ≤ 1 ∧
      (∃ tex, TMap.Find w.Client.LoadedTextures ⟨"tex1"⟩ = some (some tex) ∧
        w.Heap[0]? = some (FCanvasItem.Tile (MakeTile (demoTileT 100 50) tex))) ∧
      (∃ tex, TMap.Find w.Client.LoadedTextures ⟨"tex1"⟩ = some (some tex) ∧
        w.Heap[2]? = some (FCanvasItem.Tile (MakeTile (demoTileT 100 200) tex))) := by
  obtain ⟨w, hr, -⟩ :=
    run_isSome demoEngine LoadsSucceed_demoEngine demoTwoTiles World.fresh NoNullTexture_fresh
  obtain ⟨h1, -, -, h4, -, -⟩ := texture_loaded_once_and_kept demoEngine demoTwoTiles w hr
  exact ⟨w, hr, h1 "tex1", h4 0 _ rfl, h4 2 _ rfl⟩

/-! ## Drawing -/

theorem foldl_DrawItem (m : TMap FName Addr) (Canvas : FCanvas) :
    List.foldl (fun c Item => FCanvas.DrawItem c Item.2) Canvas m =
      Canvas ++ (TMap.Values m).map CanvasOp.DrawItem := by
  induction m generalizing Canvas with
  | nil => simp [TMap.Values]
  | cons p m ih =>
    rw [List.foldl_cons, ih]
    simp only [TMap.Values, FCanvas.DrawItem, List.map_cons, List.append_assoc,
      List.singleton_append]

theorem Draw_snd (w : World) (Canvas : FCanvas) :
    (Draw w Canvas).2 =
      Canvas ++ CanvasOp.Clear w.Client.BackgroundColor ::
        (TMap.Values w.Client.CanvasItems).map CanvasOp.DrawItem := by
  simp only [Draw, foldl_DrawItem, FCanvas.Clear, List.append_assoc, List.singleton_append]

/-- C4: `Draw` adds to the canvas one `Clear` with the background colour and
then one `DrawItem` for each entry of `CanvasItems`, in the order of the map,
and nothing else; so there are as many `DrawItem` operations as items in the
scene, and for an empty scene the `Clear` is all there is. -/
theorem Draw_emits_clear_then_items (w : World) (Canvas : FCanvas) :
    (Draw w Canvas).2 =
      Canvas ++ CanvasOp.Clear w.Client.BackgroundColor ::
        (TMap.Values w.Client.CanvasItems).map CanvasOp.DrawItem ∧
    ((Draw w []).2.filter CanvasOp.isDrawItem).length = TMap.Num w.Client.CanvasItems ∧
    ((Draw w []).2.filter (fun op => !CanvasOp.isDrawItem op)).length = 1 ∧
    (TMap.Num w.Client.CanvasItems = 0 →
      (Draw w []).2 = [CanvasOp.Clear w.Client.BackgroundColor]) := by
  have hf : ∀ l : List Addr,
      (l.map CanvasOp.DrawItem).filter CanvasOp.isDrawItem = l.map CanvasOp.DrawItem := by
    intro l
    induction l with
    | nil => rfl
    | cons a l ih => simp [CanvasOp.isDrawItem]
  have hg : ∀ l : List Addr,
      (l.map CanvasOp.DrawItem).filter (fun op => !CanvasOp.isDrawItem op) = [] := by
    intro l
    induction l with
    | nil => rfl
    | cons a l ih => simp [CanvasOp.isDrawItem]
  refine ⟨Draw_snd w Canvas, ?_, ?_, ?_⟩
  · rw [Draw_snd]
    simp only [List.nil_append]
    rw [List.filter_cons_of_neg (by simp [CanvasOp.isDrawItem]), hf]
    simp [TMap.Values, TMap.Num]
  · rw [Draw_snd]
    simp only [List.nil_append]
    rw [List.filter_cons_of_pos (by simp [CanvasOp.isDrawItem]), hg]
    rfl
  · intro h0
    rw [Draw_snd]
    have : w.Client.CanvasItems = [] := List.length_eq_zero.1 h0
    rw [this]
    rfl

/-- C5: `Draw` returns the state it was given, so `CanvasItems` and
`LoadedTextures` are as before; a second `Draw` right after the first adds to
the canvas the same operations, in the same order, as the first. -/
theorem Draw_leaves_scene_unchanged (w : World) (Canvas : FCanvas) :
    (Draw w Canvas).1 = w ∧
    (Draw w Canvas).1.Client.CanvasItems = w.Client.CanvasItems ∧
    (Draw w Canvas).1.Client.LoadedTextures = w.Client.LoadedTextures ∧
    (Draw (Draw w Canvas).1 []).2 = (Draw w []).2 ∧
    (Draw (Draw w Canvas).1 (Draw w Canvas).2).2 =
      Canvas ++ (Draw w []).2 ++ (Draw w []).2 := by
  refine ⟨rfl, rfl, rfl, rfl, ?_⟩
  rw [Draw_fst, Draw_snd w (Draw w Canvas).2, Draw_snd w Canvas, Draw_snd w []]
  simp

/-- C6: `AddBox` on a state whose scene is empty, then `Draw` on an empty
canvas: the canvas holds a `Clear` followed by one `DrawItem`, of an item that
is a box whose position, size, colour and line thickness are those of the
record. -/
theorem AddBox_then_Draw (w : World) (d : FBoxData)
    (hempty : w.Client.CanvasItems = []) :
    ∃ a, (Draw (AddBox w d) []).2 =
        [CanvasOp.Clear w.Client.BackgroundColor, CanvasOp.DrawItem a] ∧
      (AddBox w d).Heap[a]? = some (FCanvasItem.Box
        { Position := d.Position, Size := d.Size, Color := d.Color,
          LineThickness := d.Thickness }) := by
  obtain ⟨⟨it, hh, hit⟩, hc, -, hb⟩ := apply_spec emptyEngine w (AddBox w d) (Upsert.Box d) rfl
  refine ⟨w.Heap.length, ?_, ?_⟩
  · rw [Draw_snd, hc, hb, hempty]
    rfl
  · simp only [Upsert.item, Option.some.injEq] at hit
    rw [hh, ← hit]
    simp [MakeBox]

/-- C6, at the record of the scenario: a box named `A` at the origin, of size
`(1, 1)`, red, of thickness `0.2`, is the one item drawn. -/
theorem AddBox_then_Draw_witness :
    World.fresh.Client.CanvasItems = [] ∧
    ∃ a, (Draw (AddBox World.fresh demoBoxA) []).2 =
        [CanvasOp.Clear FLinearColor.Black, CanvasOp.DrawItem a] ∧
      (AddBox World.fresh demoBoxA).Heap[a]? = some (FCanvasItem.Box
        { Position := ⟨0, 0⟩, Size := ⟨1, 1⟩, Color := ⟨1, 0, 0, 1⟩,
          LineThickness := 1 / 5 }) :=
  ⟨rfl, AddBox_then_Draw World.fresh demoBoxA rfl⟩

/-! ## Creation and release of items -/

theorem TMap.mem_Values_of_Find {K V : Type} [DecidableEq K] (m : TMap K V) (k : K) (v : V)
    (h : TMap.Find m k = some v) : v ∈ TMap.Values m := by
  induction m with
  | nil => simp [TMap.Find] at h
  | cons p m ih =>
    obtain ⟨k0, v0⟩ := p
    by_cases h0 : k0 = k
    · simp only [TMap.Find, h0, if_true, Option.some.injEq] at h
      simp [TMap.Values, h]
    · simp only [TMap.Find, h0, if_false] at h
      have := ih h
      simp only [TMap.Values] at this
      simp [TMap.Values, this]

theorem TMap.Values_Emplace_of_not_mem {K V : Type} [DecidableEq K] (m : TMap K V) {k : K}
    (v : V) (h : k ∉ TMap.Keys m) :
    TMap.Values (TMap.Emplace m k v) = TMap.Values m ++ [v] := by
  induction m with
  | nil => simp [TMap.Emplace, TMap.Values]
  | cons p m ih =>
    obtain ⟨k0, v0⟩ := p
    simp only [TMap.Keys, List.map_cons, List.mem_cons, not_or] at h
    have h0 : ¬ k0 = k := fun e => h.1 e.symm
    have := ih h.2
    simp only [TMap.Values] at this
    simp [TMap.Emplace, TMap.Values, h0, this]

theorem TMap.Values_Emplace_perm {K V : Type} [DecidableEq K] [DecidableEq V]
    (m : TMap K V) (k : K) (v old : V) (h : TMap.Find m k = some old) :
    List.Perm (TMap.Values (TMap.Emplace m k v)) (v :: (TMap.Values m).erase old) := by
  induction m with
  | nil => simp [TMap.Find] at h
  | cons p m ih =>
    obtain ⟨k0, v0⟩ := p
    by_cases h0 : k0 = k
    · simp only [TMap.Find, h0, if_true, Option.some.injEq] at h
      subst h
      simp [TMap.Emplace, TMap.Values, h0]
    · simp only [TMap.Find, h0, if_false] at h
      have hp := ih h
      have hmem := TMap.mem_Values_of_Find m k old h
      simp only [TMap.Values] at hp hmem
      simp only [TMap.Emplace, h0, if_false, TMap.Values, List.map_cons]
      by_cases h1 : v0 = old
      · subst h1
        rw [List.erase_cons_head]
        refine (List.Perm.cons v0 hp).trans ?_
        refine (List.Perm.swap v v0 _).trans ?_
        exact List.Perm.cons v (List.perm_cons_erase hmem).symm
      · rw [List.erase_cons_tail (by simpa using h1)]
        exact (List.Perm.cons v0 hp).trans (List.Perm.swap v v0 _)

theorem count_after_new (a L : Nat) (vals del : List Nat) :
    (vals ++ [L]).count a + del.count a =
      vals.count a + del.count a + if a = L then 1 else 0 := by
  rw [List.count_append, List.count_singleton]
  by_cases e : a = L
  · subst e
    simp
    omega
  · have e1 : ¬ L = a := fun h => e h.symm
    simp [e, e1]

theorem count_after_replace (a L old : Nat) (vals del : List Nat) (h : old ∈ vals) :
    (L :: vals.erase old).count a + (del ++ [old]).count a =
      vals.count a + del.count a + if a = L then 1 else 0 := by
  have hpos : 1 ≤ vals.count old := List.one_le_count_iff.2 h
  rw [List.count_cons, List.count_erase, List.count_append, List.count_singleton]
  by_cases e : a = L
  · subst e
    by_cases e2 : old = a
    · subst e2
      simp
      omega
    · simp [e2]
      omega
  · have e1 : ¬ L = a := fun h => e h.symm
    by_cases e2 : old = a
    · subst e2
      simp [e, e1]
      omega
    · simp [e, e1, e2]

theorem apply_Balanced (E : Engine) (w w1 : World) (op : Upsert)
    (h : op.apply E w = some w1) (hw : Balanced w) : Balanced w1 := by
  obtain ⟨⟨it, hh, -⟩, hc, hd, -⟩ := apply_spec E w w1 op h
  intro a
  have ha := hw a
  have key : (TMap.Values w1.Client.CanvasItems).count a + w1.Deleted.count a =
      (TMap.Values w.Client.CanvasItems).count a + w.Deleted.count a +
        if a = w.Heap.length then 1 else 0 := by
    rw [hc, hd]
    cases hf : TMap.Find w.Client.CanvasItems op.Name with
    | none =>
      have hk := (TMap.Find_eq_none_iff _ _).1 hf
      rw [TMap.Values_Emplace_of_not_mem _ _ hk]
      simp only [deletedAfter, hf]
      exact count_after_new a _ _ _
    | some old =>
      have hp := (TMap.Values_Emplace_perm _ op.Name w.Heap.length old hf).count_eq a
      have hmem := TMap.mem_Values_of_Find _ _ _ hf
      rw [hp]
      simp only [deletedAfter, hf]
      exact count_after_replace a _ old _ _ hmem
  rw [key, ha, hh]
  simp only [List.length_append, List.length_singleton]
  rcases Nat.lt_trichotomy a w.Heap.length with h1 | h1 | h1
  · rw [if_pos h1, if_neg (Nat.ne_of_lt h1), if_pos (Nat.lt_succ_of_lt h1)]
  · have k1 : ¬ a < w.Heap.length := by omega
    have k2 : a < w.Heap.length + 1 := by omega
    rw [if_neg k1, if_pos h1, if_pos k2]
  · have k1 : ¬ a < w.Heap.length := by omega
    have k2 : ¬ a < w.Heap.length + 1 := by omega
    have k3 : ¬ a = w.Heap.length := by omega
    rw [if_neg k1, if_neg k2, if_neg k3]

theorem run_Balanced (E : Engine) (ops : List Upsert) (w w1 : World)
    (h : run E w ops = some w1) (hw : Balanced w) : Balanced w1 := by
  induction ops generalizing w with
  | nil =>
    simp only [run, Option.some.injEq] at h
    subst h
    exact hw
  | cons op ops ih =>
    obtain ⟨w0, ha, hr⟩ := run_cons_some E op ops w w1 h
    exact ih w0 hr (apply_Balanced E w w0 op ha hw)

theorem Balanced_fresh : Balanced World.fresh := by
  intro a
  simp [World.fresh, FCustomViewportClient.ctor, TMap.Values]

/-- C7: in a state reached from a new client by a sequence of upserts, every
item ever created (one for each upsert) either is the value of exactly one
entry of the scene and has not been deleted, or is in no entry of the scene and
has been deleted exactly once.  A further upsert under a name that is present
deletes the item stored under that name, and nothing else; that item had not
been deleted before, is no longer a value of the scene, and the scene has as
many entries as before.  A further upsert under a new name deletes nothing and
the scene has one entry more. -/
theorem upsert_releases_replaced_item (E : Engine) (ops : List Upsert) (w : World)
    (h : run E World.fresh ops = some w) (op : Upsert) (w1 : World)
    (h1 : op.apply E w = some w1) :
    (w.Heap.length = ops.length ∧
      ∀ a : Nat, a < w.Heap.length →
        ((TMap.Values w.Client.CanvasItems).count a = 1 ∧ w.Deleted.count a = 0) ∨
        ((TMap.Values w.Client.CanvasItems).count a = 0 ∧ w.Deleted.count a = 1)) ∧
    (∀ old : Nat, TMap.Find w.Client.CanvasItems op.Name = some old →
      w1.Deleted = w.Deleted ++ [old] ∧ w.Deleted.count old = 0 ∧
      w1.Deleted.count old = 1 ∧ old ∉ TMap.Values w1.Client.CanvasItems ∧
      TMap.Num w1.Client.CanvasItems = TMap.Num w.Client.CanvasItems) ∧
    (TMap.Find w.Client.CanvasItems op.Name = none →
      w1.Deleted = w.Deleted ∧
      TMap.Num w1.Client.CanvasItems = TMap.Num w.Client.CanvasItems + 1) := by
  have hw := run_Balanced E ops World.fresh w h Balanced_fresh
  have hw1 := apply_Balanced E w w1 op h1 hw
  obtain ⟨⟨it, hh, -⟩, hc, hd, -⟩ := apply_spec E w w1 op h1
  refine ⟨⟨?_, ?_⟩, ?_, ?_⟩
  · obtain ⟨l, hl, hlen⟩ := run_Heap E ops World.fresh w h
    rw [hl, ← hlen]
    simp [World.fresh]
  · intro a ha
    have := hw a
    rw [if_pos ha] at this
    omega
  · intro old hf
    have hmem := TMap.mem_Values_of_Find _ _ _ hf
    have hpos : 1 ≤ (TMap.Values w.Client.CanvasItems).count old :=
      List.one_le_count_iff.2 hmem
    have hlt : (old : Nat) < w.Heap.length := by
      by_contra hge
      have := hw old
      rw [if_neg hge] at this
      omega
    have hold : (TMap.Values w.Client.CanvasItems).count old + w.Deleted.count old = 1 := by
      have := hw old
      rwa [if_pos hlt] at this
    have hlt1 : (old : Nat) < w1.Heap.length := by
      rw [hh]
      simp only [List.length_append, List.length_singleton]
      omega
    have hold1 :
        (TMap.Values w1.Client.CanvasItems).count old + w1.Deleted.count old = 1 := by
      have := hw1 old
      rwa [if_pos hlt1] at this
    have hd1 : w1.Deleted = w.Deleted ++ [old] := by
      rw [hd]
      simp only [deletedAfter, hf]
    have hc0 : w.Deleted.count old = 0 := by omega
    have hc1 : w1.Deleted.count old = 1 := by
      rw [hd1, List.count_append, hc0]
      simp
    refine ⟨hd1, hc0, hc1, ?_, ?_⟩
    · rw [← List.count_eq_zero]
      omega
    · rw [hc]
      exact TMap.Num_Emplace_of_mem _ _
        ((TMap.Find_isSome_iff _ _).1 (by rw [hf]; rfl))
  · intro hf
    constructor
    · rw [hd]
      simp only [deletedAfter, hf]
    · rw [hc]
      exact TMap.Num_Emplace_of_not_mem _ _ ((TMap.Find_eq_none_iff _ _).1 hf)

/-- C7, at a box stored under the name `A` and then a text stored under the
same name: the box is deleted, once, and the scene keeps one entry. -/
theorem upsert_releases_replaced_item_witness :
    run demoEngine World.fresh [Upsert.Box demoBoxA] = some (AddBox World.fresh demoBoxA) ∧
    (Upsert.Text demoTextA).apply demoEngine (AddBox World.fresh demoBoxA) =
      some (AddText demoEngine (AddBox World.fresh demoBoxA) demoTextA) ∧
    TMap.Find (AddBox World.fresh demoBoxA).Client.CanvasItems ⟨"A"⟩ = some 0 ∧
    (AddText demoEngine (AddBox World.fresh demoBoxA) demoTextA).Deleted = [] ++ [0] ∧
    TMap.Num (AddText demoEngine (AddBox World.fresh demoBoxA) demoTextA).Client.CanvasItems =
      TMap.Num (AddBox World.fresh demoBoxA).Client.CanvasItems := by
  have hf : TMap.Find (AddBox World.fresh demoBoxA).Client.CanvasItems ⟨"A"⟩ = some 0 := by
    decide
  obtain ⟨k1, -, -, -, k5⟩ :=
    (upsert_releases_replaced_item demoEngine [Upsert.Box demoBoxA]
      (AddBox World.fresh demoBoxA) rfl (Upsert.Text demoTextA)
      (AddText demoEngine (AddBox World.fresh demoBoxA) demoTextA) rfl).2.1 0 hf
  exact ⟨rfl, rfl, hf, k1, k5⟩

/-! ## Teardown -/

/-- C8, what the code does: the destructor empties the two maps and deletes
nothing.  After `AddBox` on a new client and the destructor, the box that was
created is still in the free store, is not in the `delete` log, and is no longer
a value of the scene. -/
theorem Destroy_deletes_no_item :
    (∀ w : World, (Destroy w).Deleted = w.Deleted ∧ (Destroy w).Heap = w.Heap ∧
      (Destroy w).Client.CanvasItems = [] ∧ (Destroy w).Client.LoadedTextures = []) ∧
    (Destroy (AddBox World.fresh demoBoxA)).Heap = [FCanvasItem.Box (MakeBox demoBoxA)] ∧
    (AddBox World.fresh demoBoxA).Client.CanvasItems = [(⟨"A"⟩, 0)] ∧
    (Destroy (AddBox World.fresh demoBoxA)).Deleted.count 0 = 0 ∧
    (TMap.Values (Destroy (AddBox World.fresh demoBoxA)).Client.CanvasItems).count 0 = 0 := by
  refine ⟨fun w => ⟨rfl, rfl, rfl, rfl⟩, rfl, rfl, rfl, rfl⟩

/-! ## A texture that cannot be loaded -/

/-- C9, what the code does: when the texture pointer that `AddTile` resolves is
null, `AddTile` dereferences it and stores nothing; so it is for the first tile
on a new client when the engine has no texture for the path. -/
theorem AddTile_null_texture :
    (∀ (E : Engine) (w : World) (d : FTileData),
      (ResolveTexture E w d.TexturePath).1 = none → AddTile E w d = none) ∧
    emptyEngine.LoadObject [] "tex1" = none ∧
    AddTile emptyEngine World.fresh (demoTileT 100 50) = none := by
  refine ⟨fun E w d h => AddTile_eq_none E w d h, rfl, ?_⟩
  exact AddTile_eq_none emptyEngine World.fresh (demoTileT 100 50) rfl

/-! ## The toggles of the panel -/

theorem CreateWindow_eq (E : Engine) (hE : ToggleNamesDistinct E) (m : FCustomWindowModule)
    (hm : m.Settings = []) : CreateWindow E m = PanelShowing E m none := by
  obtain ⟨h1, h2, h3⟩ := hE
  have h1s : ¬ E.MakeFName "Text" = E.MakeFName "Box" := fun e => h1 e.symm
  simp [CreateWindow, Init, CreateToggle, PanelShowing, hm, TMap.Emplace, toggleEntry,
    toggleName, brushFor, h1, h2, h3]

theorem Click_PanelShowing (E : Engine) (hE : ToggleNamesDistinct E) (m : FCustomWindowModule)
    (sel : Option SWidget) (Form : SWidget) :
    Click (PanelShowing E m sel) (toggleName E Form) = some (PanelShowing E m (some Form)) := by
  obtain ⟨h1, h2, h3⟩ := hE
  have h1s : ¬ E.MakeFName "Text" = E.MakeFName "Box" := fun e => h1 e.symm
  have h2s : ¬ E.MakeFName "Texture" = E.MakeFName "Box" := fun e => h2 e.symm
  have h3s : ¬ E.MakeFName "Texture" = E.MakeFName "Text" := fun e => h3 e.symm
  rcases sel with _ | sel
  · cases Form <;>
      simp [Click, PanelShowing, toggleEntry, toggleName, brushFor, TMap.Find, TMap.Contains,
        OnMouseButtonDown, Deselect, SetOverlay, TMap.Update, SOverlay.GetNumWidgets,
        SOverlay.RemoveSlot, SOverlay.AddSlot, h1, h2, h3, h1s, h2s, h3s]
  · cases sel <;> cases Form <;>
      simp [Click, PanelShowing, toggleEntry, toggleName, brushFor, TMap.Find, TMap.Contains,
        OnMouseButtonDown, Deselect, SetOverlay, TMap.Update, SOverlay.GetNumWidgets,
        SOverlay.RemoveSlot, SOverlay.AddSlot, h1, h2, h3, h1s, h2s, h3s]

theorem toggleName_injective (E : Engine) (hE : ToggleNamesDistinct E) (f g : SWidget)
    (h : toggleName E f = toggleName E g) : f = g := by
  obtain ⟨h1, h2, h3⟩ := hE
  cases f <;> cases g <;> simp only [toggleName] at h <;>
    first
      | rfl
      | exact absurd h h1
      | exact absurd h h2
      | exact absurd h h3
      | exact absurd h.symm h1
      | exact absurd h.symm h2
      | exact absurd h.symm h3

theorem PanelShowing_Keys (E : Engine) (m : FCustomWindowModule) (sel : Option SWidget) :
    TMap.Keys (PanelShowing E m sel).Settings =
      [E.MakeFName "Box", E.MakeFName "Text", E.MakeFName "Texture"] := rfl

theorem PanelShowing_Find (E : Engine) (m : FCustomWindowModule) (sel : Option SWidget)
    (k : FName) (b : SBorder) (f : SWidget)
    (h : TMap.Find (PanelShowing E m sel).Settings k = some (b, f)) :
    k = toggleName E f ∧ b = { BorderImage := brushFor sel f, OnMouseButtonDown := (k, f) } := by
  simp only [PanelShowing, TMap.Find, toggleEntry] at h
  split_ifs at h with e1 e2 e3
  · simp only [Option.some.injEq, Prod.mk.injEq] at h
    obtain ⟨hb, hf⟩ := h
    subst hf hb
    exact ⟨e1.symm, by rw [e1]⟩
  · simp only [Option.some.injEq, Prod.mk.injEq] at h
    obtain ⟨hb, hf⟩ := h
    subst hf hb
    exact ⟨e2.symm, by rw [e2]⟩
  · simp only [Option.some.injEq, Prod.mk.injEq] at h
    obtain ⟨hb, hf⟩ := h
    subst hf hb
    exact ⟨e3.symm, by rw [e3]⟩

theorem PanelShowing_Find_toggle (E : Engine) (hE : ToggleNamesDistinct E)
    (m : FCustomWindowModule) (sel : Option SWidget) (f : SWidget) :
    TMap.Find (PanelShowing E m sel).Settings (toggleName E f) =
      some ({ BorderImage := brushFor sel f, OnMouseButtonDown := (toggleName E f, f) }, f) := by
  obtain ⟨h1, h2, h3⟩ := hE
  cases f <;> simp [PanelShowing, TMap.Find, toggleEntry, toggleName, h1, h2, h3]

theorem PanelShowing_Active (E : Engine) (m : FCustomWindowModule) (sel : Option SWidget) :
    ActiveToggles (PanelShowing E m sel) =
      match sel with
      | none => []
      | some f => [toggleName E f] := by
  rcases sel with _ | f
  · simp [ActiveToggles, PanelShowing, toggleEntry, brushFor, TMap.Keys]
  · cases f <;> simp [ActiveToggles, PanelShowing, toggleEntry, brushFor, TMap.Keys, toggleName]

theorem Clicks_PanelShowing (E : Engine) (hE : ToggleNamesDistinct E)
    (m : FCustomWindowModule) (clicks : List FName) (sel : Option SWidget)
    (hclicks : ∀ k, k ∈ clicks → ∃ f, toggleName E f = k) :
    ∃ sel1, Clicks (PanelShowing E m sel) clicks = some (PanelShowing E m sel1) ∧
      (clicks = [] → sel1 = sel) ∧
      (∀ k, clicks.getLast? = some k → ∃ f, sel1 = some f ∧ toggleName E f = k) := by
  induction clicks generalizing sel with
  | nil => exact ⟨sel, rfl, fun _ => rfl, fun k hk => by simp at hk⟩
  | cons k rest ih =>
    obtain ⟨f, hf⟩ := hclicks k (List.mem_cons_self _ _)
    obtain ⟨sel1, h1, h2, h3⟩ := ih (some f) (fun k1 hk1 => hclicks k1 (List.mem_cons_of_mem _ hk1))
    refine ⟨sel1, ?_, ?_, ?_⟩
    · simp only [Clicks]
      rw [← hf, Click_PanelShowing E hE m sel f]
      exact h1
    · intro e
      exact absurd e (List.cons_ne_nil _ _)
    · intro k1 hk1
      cases rest with
      | nil =>
        simp only [List.getLast?_singleton, Option.some.injEq] at hk1
        subst hk1
        exact ⟨f, h2 rfl, hf⟩
      | cons k2 rest2 =>
        rw [List.getLast?_cons_cons] at hk1
        exact h3 k1 hk1

/-- C10: after `Init` on a module without toggles and a new overlay, the three
toggle names being different names, the panel has the toggles `Box`, `Text`
and `Texture`, none of them active, and an empty overlay.  Every sequence of
clicks on toggles runs, and leaves the three toggles with at most one of them
active; when there was at least one click, the toggle clicked last is active,
every other toggle shows the disabled brush, and the overlay holds exactly one
widget, the form that was stored with that toggle by `Init`. -/
theorem toggles_single_selection (E : Engine) (hE : ToggleNamesDistinct E)
    (m0 : FCustomWindowModule) (hm0 : m0.Settings = []) (clicks : List FName)
    (hclicks : ∀ k, k ∈ clicks → k ∈ TMap.Keys (CreateWindow E m0).Settings) :
    (TMap.Keys (CreateWindow E m0).Settings =
        [E.MakeFName "Box", E.MakeFName "Text", E.MakeFName "Texture"] ∧
      ActiveToggles (CreateWindow E m0) = [] ∧ (CreateWindow E m0).Overlay = []) ∧
    ∃ m, Clicks (CreateWindow E m0) clicks = some m ∧
      TMap.Keys m.Settings = [E.MakeFName "Box", E.MakeFName "Text", E.MakeFName "Texture"] ∧
      (ActiveToggles m).length ≤ 1 ∧
      ∀ k, clicks.getLast? = some k →
        ActiveToggles m = [k] ∧
        (∀ k1 b1 f1, TMap.Find m.Settings k1 = some (b1, f1) →
          (b1.BorderImage = Brush.ActiveColor ↔ k1 = k) ∧
          (k1 ≠ k → b1.BorderImage = Brush.DisabledColor)) ∧
        ∃ b f, TMap.Find m.Settings k = some (b, f) ∧
          SOverlay.Widgets m.Overlay = [f] ∧ k = toggleName E f := by
  have h0 := CreateWindow_eq E hE m0 hm0
  rw [h0]
  rw [h0] at hclicks
  refine ⟨⟨PanelShowing_Keys E m0 none, PanelShowing_Active E m0 none, rfl⟩, ?_⟩
  have hcl : ∀ k, k ∈ clicks → ∃ f, toggleName E f = k := by
    intro k hk
    have := hclicks k hk
    rw [PanelShowing_Keys] at this
    simp only [List.mem_cons, List.mem_singleton, List.not_mem_nil, or_false] at this
    rcases this with e | e | e
    · exact ⟨SWidget.BoxSettings, e.symm⟩
    · exact ⟨SWidget.TextSettings, e.symm⟩
    · exact ⟨SWidget.TileSettings, e.symm⟩
  obtain ⟨sel1, h1, -, h3⟩ := Clicks_PanelShowing E hE m0 clicks none hcl
  refine ⟨PanelShowing E m0 sel1, h1, PanelShowing_Keys E m0 sel1, ?_, ?_⟩
  · rw [PanelShowing_Active]
    cases sel1 <;> simp
  · intro k hk
    obtain ⟨f, rfl, hf⟩ := h3 k hk
    subst hf
    refine ⟨PanelShowing_Active E m0 (some f), ?_, ?_⟩
    · intro k1 b1 f1 hfind
      obtain ⟨e1, e2⟩ := PanelShowing_Find E m0 (some f) k1 b1 f1 hfind
      subst e1 e2
      simp only [brushFor]
      by_cases e : f = f1
      · subst e
        simp
      · have e3 : ¬ toggleName E f1 = toggleName E f :=
          fun h => e (toggleName_injective E hE f1 f h).symm
        have e4 : ¬ some f = some f1 := fun h => e (Option.some.inj h)
        simp [e3, e4]
    · refine ⟨_, f, PanelShowing_Find_toggle E hE m0 (some f) f, rfl, rfl⟩

/-- C10, at a click on `Box` followed by a click on `Texture`: the toggle
`Texture` alone is active and the overlay holds the tile form. -/
theorem toggles_single_selection_witness :
    ToggleNamesDistinct demoEngine ∧ demoModule.Settings = [] ∧
    ∃ m, Clicks (CreateWindow demoEngine demoModule) [⟨"Box"⟩, ⟨"Texture"⟩] = some m ∧
      ActiveToggles m = [⟨"Texture"⟩] ∧
      ∃ b f, TMap.Find m.Settings ⟨"Texture"⟩ = some (b, f) ∧
        SOverlay.Widgets m.Overlay = [f] ∧
        (⟨"Texture"⟩ : FName) = toggleName demoEngine f := by
  have hE : ToggleNamesDistinct demoEngine := by
    simp [ToggleNamesDistinct, demoEngine]
  have hk : ∀ k, k ∈ [(⟨"Box"⟩ : FName), ⟨"Texture"⟩] →
      k ∈ TMap.Keys (CreateWindow demoEngine demoModule).Settings := by
    intro k hk
    rw [CreateWindow_eq demoEngine hE demoModule rfl, PanelShowing_Keys]
    simp only [List.mem_cons, List.mem_singleton, List.not_mem_nil, or_false] at hk
    rcases hk with e | e <;> subst e <;> simp [demoEngine]
  obtain ⟨-, m, h1, -, -, h4⟩ :=
    toggles_single_selection demoEngine hE demoModule rfl [⟨"Box"⟩, ⟨"Texture"⟩] hk
  obtain ⟨h5, -, h6⟩ := h4 ⟨"Texture"⟩ rfl
  exact ⟨hE, rfl, m, h1, h5, h6⟩

/-! ## ENTER -/

theorem Enter_eq (E : Engine) (Form : SWidget) (s : EditorState) :
    Enter E Form s =
      ((Pending s.Module Form).apply E s.World).map
        fun w => (FReply.Handled, { s with World := w }) := by
  cases Form <;> rfl

theorem Enter_eq_some (E : Engine) (Form : SWidget) (s s1 : EditorState) (r : FReply)
    (h : Enter E Form s = some (r, s1)) :
    r = FReply.Handled ∧ s1.Module = s.Module ∧
      (Pending s.Module Form).apply E s.World = some s1.World := by
  rw [Enter_eq] at h
  cases ha : (Pending s.Module Form).apply E s.World with
  | none => simp [ha] at h
  | some w =>
    rw [ha] at h
    simp only [Option.map_some', Option.some.injEq, Prod.mk.injEq] at h
    obtain ⟨h1, h2⟩ := h
    subst h2
    exact ⟨h1.symm, rfl, rfl⟩

/-- C11: the ENTER button of each form calls the specialization of `Add` for
the item class of the form, and that call is the upsert of the pending record
of the form on the client: `AddBox(BoxData)`, `AddText(TextData)`,
`AddTile(TileData)`.  The box and the text ENTER always complete, the tile
ENTER completes when the texture pointer it resolves is not null.  An ENTER
that completes returns `Handled`, leaves the module, and so the three pending
records, as they were, creates one item, the one built from the record of its
form, and stores its address under the name of that record; the result does
not depend on the other two records. -/
theorem enter_commits_own_record (E : Engine) (s : EditorState) (Form : SWidget)
    (r : FReply) (s1 : EditorState) (h : Enter E Form s = some (r, s1)) :
    (Enter E SWidget.BoxSettings s = Add E ItemClass.FCanvasBoxItem s ∧
      Enter E SWidget.TextSettings s = Add E ItemClass.FCanvasTextItem s ∧
      Enter E SWidget.TileSettings s = Add E ItemClass.FCanvasTileItem s) ∧
    (Add E ItemClass.FCanvasBoxItem s =
        some (FReply.Handled, { s with World := AddBox s.World s.Module.BoxData }) ∧
      Add E ItemClass.FCanvasTextItem s =
        some (FReply.Handled, { s with World := AddText E s.World s.Module.TextData }) ∧
      Add E ItemClass.FCanvasTileItem s =
        (AddTile E s.World s.Module.TileData).map
          fun w => (FReply.Handled, { s with World := w })) ∧
    ((ResolveTexture E s.World s.Module.TileData.TexturePath).1.isSome = true →
      (Enter E SWidget.TileSettings s).isSome = true) ∧
    (r = FReply.Handled ∧ s1.Module = s.Module ∧
      s1.Module.BoxData = s.Module.BoxData ∧ s1.Module.TextData = s.Module.TextData ∧
      s1.Module.TileData = s.Module.TileData) ∧
    ((Pending s.Module Form).apply E s.World = some s1.World ∧
      TMap.Find s1.World.Client.CanvasItems (Pending s.Module Form).Name =
        some s.World.Heap.length ∧
      ∃ it, s1.World.Heap = s.World.Heap ++ [it] ∧
        Upsert.item E s1.World (Pending s.Module Form) = some it) ∧
    (∀ m : FCustomWindowModule, Pending m Form = Pending s.Module Form →
      ∃ s2, Enter E Form { s with Module := m } = some (r, s2) ∧ s2.World = s1.World ∧
        s2.Module = m) := by
  obtain ⟨h1, h2, h3⟩ := Enter_eq_some E Form s s1 r h
  obtain ⟨hit, hc, -⟩ := apply_spec E s.World s1.World _ h3
  refine ⟨⟨rfl, rfl, rfl⟩, ⟨rfl, rfl, rfl⟩, ?_, ⟨h1, h2, by rw [h2], by rw [h2], by rw [h2]⟩,
    ⟨h3, ?_, hit⟩, ?_⟩
  · intro hres
    have := AddTile_isSome E s.World s.Module.TileData hres
    rw [Enter_eq]
    simpa [Pending, Upsert.apply] using this
  · rw [hc]
    exact TMap.Find_Emplace_self _ _ _
  · intro m hm
    refine ⟨{ s with Module := m, World := s1.World }, ?_, rfl, rfl⟩
    rw [Enter_eq]
    simp only [hm, h3, Option.map_some', h1]

/-- C11, at the tile form of a new panel, the engine having a texture for the
path: ENTER completes, returns `Handled`, leaves the module as it was and
stores the first item of the free store under the name `T`. -/
theorem enter_commits_own_record_witness :
    ∃ s1, Enter demoEngine SWidget.TileSettings demoEditor = some (FReply.Handled, s1) ∧
      s1.Module = demoEditor.Module ∧
      TMap.Find s1.World.Client.CanvasItems ⟨"T"⟩ = some 0 := by
  obtain ⟨w1, hw, -⟩ :=
    AddTile_stored demoEngine World.fresh (demoTileT 100 50)
      { SizeX := 200, SizeY := 100, Resource := 0 } rfl
  have he : Enter demoEngine SWidget.TileSettings demoEditor =
      some (FReply.Handled, { demoEditor with World := w1 }) := by
    rw [Enter_eq]
    simp only [Pending, Upsert.apply]
    show Option.map _ (AddTile demoEngine World.fresh (demoTileT 100 50)) = _
    rw [hw]
    rfl
  obtain ⟨-, -, -, ⟨-, k2, -⟩, ⟨-, k5, -⟩, -⟩ :=
    enter_commits_own_record demoEngine demoEditor SWidget.TileSettings FReply.Handled
      { demoEditor with World := w1 } he
  exact ⟨_, he, k2, k5⟩

/-! ## Editing a pending record -/

theorem FieldCallback_run_World (E : Engine) (HSV : FLinearColor → FLinearColor)
    (s : EditorState) (cb : FieldCallback) : (cb.run E HSV s).World = s.World := by
  cases cb <;> rfl

theorem Edits_World (E : Engine) (HSV : FLinearColor → FLinearColor)
    (cbs : List FieldCallback) (s : EditorState) : (Edits E HSV s cbs).World = s.World := by
  induction cbs generalizing s with
  | nil => rfl
  | cons cb cbs ih =>
    simp only [Edits, List.foldl_cons] at ih ⊢
    rw [ih, FieldCallback_run_World]

/-- C12: a call of a writing lambda of a form returns a state in which the
client, the free store, and so `CanvasItems` and `LoadedTextures`, are as
before, as are the toggles and the overlay; the records of the other two forms
are as before; and in all three records every field other than the one the
lambda is wired to is as before.  After an ENTER that completed, any sequence
of such calls leaves under the name the record had at the ENTER the address of
the item created by the ENTER, and that item is still the one built from the
record as it was at the ENTER. -/
theorem field_callback_changes_one_field (E : Engine) (HSV : FLinearColor → FLinearColor)
    (s : EditorState) (cb : FieldCallback) (cbs : List FieldCallback) (Form : SWidget)
    (r : FReply) (s1 : EditorState) (hEnter : Enter E Form s = some (r, s1)) :
    ((cb.run E HSV s).World = s.World ∧
      (cb.run E HSV s).World.Client.CanvasItems = s.World.Client.CanvasItems ∧
      (cb.run E HSV s).World.Client.LoadedTextures = s.World.Client.LoadedTextures ∧
      (cb.run E HSV s).Module.Settings = s.Module.Settings ∧
      (cb.run E HSV s).Module.Overlay = s.Module.Overlay) ∧
    ((cb.Form ≠ SWidget.BoxSettings → (cb.run E HSV s).Module.BoxData = s.Module.BoxData) ∧
      (cb.Form ≠ SWidget.TextSettings →
        (cb.run E HSV s).Module.TextData = s.Module.TextData) ∧
      (cb.Form ≠ SWidget.TileSettings →
        (cb.run E HSV s).Module.TileData = s.Module.TileData)) ∧
    ((cb.Field ≠ RecordField.Name →
        (cb.run E HSV s).Module.BoxData.Name = s.Module.BoxData.Name ∧
        (cb.run E HSV s).Module.TextData.Name = s.Module.TextData.Name ∧
        (cb.run E HSV s).Module.TileData.Name = s.Module.TileData.Name) ∧
      (cb.Field ≠ RecordField.Position →
        (cb.run E HSV s).Module.BoxData.Position = s.Module.BoxData.Position ∧
        (cb.run E HSV s).Module.TextData.Position = s.Module.TextData.Position ∧
        (cb.run E HSV s).Module.TileData.Position = s.Module.TileData.Position) ∧
      (cb.Field ≠ RecordField.Size →
        (cb.run E HSV s).Module.BoxData.Size = s.Module.BoxData.Size ∧
        (cb.run E HSV s).Module.TileData.Size = s.Module.TileData.Size) ∧
      (cb.Field ≠ RecordField.Thickness →
        (cb.run E HSV s).Module.BoxData.Thickness = s.Module.BoxData.Thickness) ∧
      (cb.Field ≠ RecordField.FontSize →
        (cb.run E HSV s).Module.TextData.FontSize = s.Module.TextData.FontSize) ∧
      (cb.Field ≠ RecordField.Message →
        (cb.run E HSV s).Module.TextData.Message = s.Module.TextData.Message) ∧
      (cb.Field ≠ RecordField.Color →
        (cb.run E HSV s).Module.BoxData.Color = s.Module.BoxData.Color ∧
        (cb.run E HSV s).Module.TextData.Color = s.Module.TextData.Color ∧
        (cb.run E HSV s).Module.TileData.Color = s.Module.TileData.Color) ∧
      (cb.Field ≠ RecordField.TexturePath →
        (cb.run E HSV s).Module.TileData.TexturePath = s.Module.TileData.TexturePath)) ∧
    ((Edits E HSV s1 cbs).World = s1.World ∧
      TMap.Find (Edits E HSV s1 cbs).World.Client.CanvasItems (Pending s.Module Form).Name =
        some s.World.Heap.length ∧
      ∃ it, (Edits E HSV s1 cbs).World.Heap[s.World.Heap.length]? = some it ∧
        Upsert.item E s1.World (Pending s.Module Form) = some it) := by
  refine ⟨?_, ?_, ?_, ?_⟩
  · cases cb <;> exact ⟨rfl, rfl, rfl, rfl, rfl⟩
  · cases cb <;>
      simp [FieldCallback.run, FieldCallback.Form, EditorState.setBoxData,
        EditorState.setTextData, EditorState.setTileData,
        CreateBoxSettings.OnNameCommit, CreateBoxSettings.OnThicknessCommit,
        CreateBoxSettings.OnPosXCommit, CreateBoxSettings.OnPosYCommit,
        CreateBoxSettings.OnSizeWCommit, CreateBoxSettings.OnSizeHCommit,
        CreateBoxSettings.OnColorSelected,
        CreateTextSettings.OnNameCommit, CreateTextSettings.OnMessageCommit,
        CreateTextSettings.OnPosXCommit, CreateTextSettings.OnPosYCommit,
        CreateTextSettings.OnFontSizeCommit, CreateTextSettings.OnColorSelected,
        CreateTileSettings.OnNameCommit, CreateTileSettings.OnPosXCommit,
        CreateTileSettings.OnPosYCommit, CreateTileSettings.OnSizeWCommit,
        CreateTileSettings.OnSizeHCommit, CreateTileSettings.OnColorSelected,
        CreateTileSettings.OnTextureSelected]
  · cases cb <;>
      simp [FieldCallback.run, FieldCallback.Field, EditorState.setBoxData,
        EditorState.setTextData, EditorState.setTileData,
        CreateBoxSettings.OnNameCommit, CreateBoxSettings.OnThicknessCommit,
        CreateBoxSettings.OnPosXCommit, CreateBoxSettings.OnPosYCommit,
        CreateBoxSettings.OnSizeWCommit, CreateBoxSettings.OnSizeHCommit,
        CreateBoxSettings.OnColorSelected,
        CreateTextSettings.OnNameCommit, CreateTextSettings.OnMessageCommit,
        CreateTextSettings.OnPosXCommit, CreateTextSettings.OnPosYCommit,
        CreateTextSettings.OnFontSizeCommit, CreateTextSettings.OnColorSelected,
        CreateTileSettings.OnNameCommit, CreateTileSettings.OnPosXCommit,
        CreateTileSettings.OnPosYCommit, CreateTileSettings.OnSizeWCommit,
        CreateTileSettings.OnSizeHCommit, CreateTileSettings.OnColorSelected,
        CreateTileSettings.OnTextureSelected]
  · obtain ⟨-, -, h3⟩ := Enter_eq_some E Form s s1 r hEnter
    obtain ⟨⟨it, hh, hit⟩, hc, -⟩ := apply_spec E s.World s1.World _ h3
    have hw := Edits_World E HSV cbs s1
    rw [hw]
    refine ⟨rfl, ?_, it, ?_, hit⟩
    · rw [hc]
      exact TMap.Find_Emplace_self _ _ _
    · rw [hh]
      simp

/-- C12, at a box committed from a new panel and then an edit of the colour and
of the name of the box record: the record has the new colour and the new name,
the scene still holds under the old name `A` the first item of the free store,
and that item is still the red box. -/
theorem field_callback_changes_one_field_witness :
    ∃ s1, Enter demoEngine SWidget.BoxSettings demoEditor = some (FReply.Handled, s1) ∧
      (Edits demoEngine demoHSV s1
        [FieldCallback.BoxColor ⟨0, 1, 0, 1⟩,
         FieldCallback.BoxName "B" ETextCommit.OnEnter]).Module.BoxData =
        { demoBoxA with Name := ⟨"B"⟩, Color := ⟨1, 0, 0, 1⟩ } ∧
      (FieldCallback.run demoEngine demoHSV demoEditor
        (FieldCallback.BoxColor ⟨0, 1, 0, 1⟩)).Module.TextData = demoTextA ∧
      TMap.Find (Edits demoEngine demoHSV s1
        [FieldCallback.BoxColor ⟨0, 1, 0, 1⟩,
         FieldCallback.BoxName "B" ETextCommit.OnEnter]).World.Client.CanvasItems ⟨"A"⟩ =
        some 0 ∧
      ∃ it, (Edits demoEngine demoHSV s1
        [FieldCallback.BoxColor ⟨0, 1, 0, 1⟩,
         FieldCallback.BoxName "B" ETextCommit.OnEnter]).World.Heap[0]? = some it ∧
        some (FCanvasItem.Box (MakeBox demoBoxA)) = some it := by
  obtain ⟨-, ⟨-, k2, -⟩, -, ⟨-, k5, k6⟩⟩ :=
    field_callback_changes_one_field demoEngine demoHSV demoEditor
      (FieldCallback.BoxColor ⟨0, 1, 0, 1⟩)
      [FieldCallback.BoxColor ⟨0, 1, 0, 1⟩, FieldCallback.BoxName "B" ETextCommit.OnEnter]
      SWidget.BoxSettings FReply.Handled
      { demoEditor with World := AddBox World.fresh demoBoxA } rfl
  exact ⟨_, rfl, rfl, k2 (by decide), k5, k6⟩

end CustomWindow
